import Mathlib

/-!
# Verification of the agent execution controller (`src/agent.ts`)

This file gives a shallow embedding of the `AgentManager` class of
`src/agent.ts` (the agent-run loop, interruption/approval state machine,
streamed-event translation and token accounting) and proves properties of
that embedding.

Modelling conventions:
* JS `Map` objects become association lists preserving insertion order
  (`Map.set` replaces an existing key in place or appends, `Map.delete`
  removes the entry).
* The id strings built from `Date.now()` and `Math.random()`
  (`msg-…`, `int-…`, `group-…`) are modelled by an injectively encoded
  fresh counter threaded through the state: collision probability of the
  real scheme is required to be negligible, so the model makes ids unique.
* The JS builtin `JSON.parse` / `JSON.stringify(x, null, 2)` pair used by
  `_formatToolInput` is modelled by a small executable JSON reader and
  2-space pretty-printer.  Numeric literals are kept verbatim and string
  escapes are round-tripped unchanged; this external builtin is only ever
  observed through `formatToolInput` by the properties proved here.
* Signals (`Signal.emit`) become explicit output lists; `console.warn`
  becomes a `log` output; the `_runner` object replaced by `clearHistory`
  becomes a generation counter.
* The streamed model backend (`runner.run`) is an external collaborator;
  its behaviour is supplied to `generateResponse` as an explicit script of
  run outcomes, and the external `approve`/`reject` calls that resolve a
  batch while `generateResponse` busy-waits are supplied as an explicit
  list of actions per batch.
-/

/-- Token usage counters (`ITokenUsage`). -/
structure TokenUsage where
  inputTokens : Nat
  outputTokens : Nat
  deriving DecidableEq

/-- JS `x || d` for an optional string field: `undefined` and the empty
string are falsy, so both fall back to the default. -/
def jsOr (v : Option String) (d : String) : String :=
  match v with
  | some s => if s = "" then d else s
  | none => d

/-! ## JSON model for `_formatToolInput` -/

/-- JSON values as observed by `JSON.parse`.  Numeric literals are kept
verbatim (`jnum` stores the lexeme) and string bodies are stored raw with
their escapes. -/
inductive Json where
  | jnull : Json
  | jbool : Bool → Json
  | jnum : String → Json
  | jstr : String → Json
  | jarr : List Json → Json
  | jobj : List (String × Json) → Json

/-- The `{` character (written via its code point). -/
def lbraceC : Char := Char.ofNat 123

/-- The `}` character (written via its code point). -/
def rbraceC : Char := Char.ofNat 125

/-- The `"` character. -/
def quoteC : Char := Char.ofNat 34

/-- The `\` character. -/
def backslashC : Char := Char.ofNat 92

/-- JSON insignificant whitespace. -/
def isWs (c : Char) : Bool :=
  c = ' ' || c = '\n' || c = '\t' || c = '\r'

/-- Drop leading whitespace. -/
def skipWs : List Char → List Char
  | [] => []
  | c :: rest => if isWs c then skipWs rest else c :: rest

/-- Scan a JSON string body after the opening quote; escapes are copied
verbatim.  Returns the body and the remainder after the closing quote. -/
def scanStr : List Char → Option (List Char × List Char)
  | [] => none
  | c :: rest =>
    if c = quoteC then some ([], rest)
    else if c = backslashC then
      match rest with
      | [] => none
      | e :: rest2 =>
        match scanStr rest2 with
        | some (inner, rem) => some (c :: e :: inner, rem)
        | none => none
    else
      match scanStr rest with
      | some (inner, rem) => some (c :: inner, rem)
      | none => none

/-- Characters that may occur in a JSON numeric literal. -/
def isNumChar (c : Char) : Bool :=
  c.isDigit || c = '-' || c = '+' || c = '.' || c = 'e' || c = 'E'

/-- Scan a maximal run of numeric-literal characters. -/
def scanNum : List Char → List Char × List Char
  | [] => ([], [])
  | c :: rest =>
    if isNumChar c then
      let (a, b) := scanNum rest
      (c :: a, b)
    else ([], c :: rest)

/-- Consume an exact literal. -/
def expectLit : List Char → List Char → Option (List Char)
  | [], cs => some cs
  | _ :: _, [] => none
  | l :: ls, c :: cs => if c = l then expectLit ls cs else none

mutual

/-- Fuel-indexed JSON value reader (model of `JSON.parse`). -/
def parseVal : Nat → List Char → Option (Json × List Char)
  | 0, _ => none
  | Nat.succ f, cs =>
    match skipWs cs with
    | [] => none
    | c :: rest =>
      if c = quoteC then
        match scanStr rest with
        | some (inner, rem) => some (Json.jstr (String.mk inner), rem)
        | none => none
      else if c = lbraceC then
        match skipWs rest with
        | c2 :: rest2 =>
          if c2 = rbraceC then some (Json.jobj [], rest2)
          else
            match parseObjItems f (c2 :: rest2) with
            | some (fields, rem) => some (Json.jobj fields, rem)
            | none => none
        | [] => none
      else if c = '[' then
        match skipWs rest with
        | c2 :: rest2 =>
          if c2 = ']' then some (Json.jarr [], rest2)
          else
            match parseArrItems f (c2 :: rest2) with
            | some (items, rem) => some (Json.jarr items, rem)
            | none => none
        | [] => none
      else if c = 'n' then (expectLit ['u', 'l', 'l'] rest).map (fun r => (Json.jnull, r))
      else if c = 't' then (expectLit ['r', 'u', 'e'] rest).map (fun r => (Json.jbool true, r))
      else if c = 'f' then (expectLit ['a', 'l', 's', 'e'] rest).map (fun r => (Json.jbool false, r))
      else if isNumChar c then
        let (num, rem) := scanNum (c :: rest)
        some (Json.jnum (String.mk num), rem)
      else none

/-- Comma-separated array items up to the closing bracket. -/
def parseArrItems : Nat → List Char → Option (List Json × List Char)
  | 0, _ => none
  | Nat.succ f, cs =>
    match parseVal f cs with
    | none => none
    | some (v, rem) =>
      match skipWs rem with
      | [] => none
      | c :: rest =>
        if c = ',' then (parseArrItems f rest).map (fun p => (v :: p.1, p.2))
        else if c = ']' then some ([v], rest)
        else none

/-- Comma-separated object fields up to the closing brace. -/
def parseObjItems : Nat → List Char → Option (List (String × Json) × List Char)
  | 0, _ => none
  | Nat.succ f, cs =>
    match skipWs cs with
    | [] => none
    | c :: rest =>
      if c = quoteC then
        match scanStr rest with
        | none => none
        | some (key, rem) =>
          match skipWs rem with
          | [] => none
          | c2 :: rest2 =>
            if c2 = ':' then
              match parseVal f rest2 with
              | none => none
              | some (v, rem2) =>
                match skipWs rem2 with
                | [] => none
                | c3 :: rest3 =>
                  if c3 = ',' then
                    (parseObjItems f rest3).map (fun p => ((String.mk key, v) :: p.1, p.2))
                  else if c3 = rbraceC then some ([(String.mk key, v)], rest3)
                  else none
            else none
      else none

end

/-- Model of `JSON.parse`: the whole input must be one JSON value. -/
def jsonParse (s : String) : Option Json :=
  match parseVal (s.length + 1) s.data with
  | some (v, rem) => if (skipWs rem).isEmpty then some v else none
  | none => none

/-- A run of `n` spaces. -/
def mkIndent (n : Nat) : String := String.mk (List.replicate n ' ')

/-- The `"` character as a one-character string. -/
def quoteS : String := String.mk [quoteC]

mutual

/-- Model of `JSON.stringify(v, null, 2)` at indentation level `ind`. -/
def jsonRender : Json → Nat → String
  | Json.jnull, _ => "null"
  | Json.jbool true, _ => "true"
  | Json.jbool false, _ => "false"
  | Json.jnum lit, _ => lit
  | Json.jstr s, _ => quoteS ++ s ++ quoteS
  | Json.jarr [], _ => "[]"
  | Json.jarr (v :: vs), ind =>
      "[\n" ++ renderItems (v :: vs) (ind + 2) ++ "\n" ++ mkIndent ind ++ "]"
  | Json.jobj [], _ => "\x7b\x7d"
  | Json.jobj (kv :: kvs), ind =>
      "\x7b\n" ++ renderFields (kv :: kvs) (ind + 2) ++ "\n" ++ mkIndent ind ++ "\x7d"

/-- Render array items, one per line. -/
def renderItems : List Json → Nat → String
  | [], _ => ""
  | [v], ind => mkIndent ind ++ jsonRender v ind
  | v :: v2 :: vs, ind =>
      mkIndent ind ++ jsonRender v ind ++ ",\n" ++ renderItems (v2 :: vs) ind

/-- Render object fields, one per line. -/
def renderFields : List (String × Json) → Nat → String
  | [], _ => ""
  | [(k, v)], ind => mkIndent ind ++ quoteS ++ k ++ quoteS ++ ": " ++ jsonRender v ind
  | (k, v) :: kv2 :: kvs, ind =>
      mkIndent ind ++ quoteS ++ k ++ quoteS ++ ": " ++ jsonRender v ind ++ ",\n" ++
        renderFields (kv2 :: kvs) ind

end

/-- Embeds `AgentManager._formatToolInput`: parse the input as JSON and
re-stringify it with 2-space indentation; if parsing fails, return the
input unchanged. -/
def formatToolInput (input : String) : String :=
  match jsonParse input with
  | some v => jsonRender v 0
  | none => input

/-! ## Fresh ids

`msg-${Date.now()}-${Math.random()}`, `int-…` and `group-…` are modelled
by a counter rendered injectively into the id string. -/

/-- Injective rendering of the fresh counter. -/
def natTag (n : Nat) : String := String.mk (List.replicate n 'i')

/-- Fresh assistant-message id (`msg-…`). -/
def mkMsgId (k : Nat) : String := "msg-" ++ natTag k

/-- Fresh interruption id (`int-…`). -/
def mkIntId (k : Nat) : String := "int-" ++ natTag k

/-- Fresh approval-group id (`group-…`). -/
def mkGroupId (k : Nat) : String := "group-" ++ natTag k

theorem natTag_injective : Function.Injective natTag := by
  intro a b h
  have := congrArg (fun s => s.data.length) h
  simpa [natTag] using this

theorem mkMsgId_injective : Function.Injective mkMsgId := by
  intro a b h
  apply natTag_injective
  have := congrArg (fun s => s.data) h
  simp only [mkMsgId, String.data_append] at this
  have h2 := List.append_cancel_left this
  exact String.ext h2

example : mkMsgId 2 = "msg-ii" := by decide
example : formatToolInput "\x7b\x7d" = "\x7b\x7d" := by decide

/-! ## Data model -/

/-- The `rawItem` of a `RunToolApprovalItem`: tool name, serialized
arguments, item type discriminator and call id. -/
structure ApprovalRawItem where
  name : Option String
  arguments : Option String
  itemType : String
  callId : String
  deriving DecidableEq

/-- One tool call awaiting human authorization (`RunToolApprovalItem`). -/
structure Interruption where
  rawItem : ApprovalRawItem
  deriving DecidableEq

/-- The opaque resumable run state (`result.state`).  It is only ever
round-tripped and asked to record `approve`/`reject` verdicts, so the
model tags it with an identity and the recorded verdicts. -/
structure RunState where
  sid : Nat
  approvedItems : List Interruption
  rejectedItems : List Interruption
  deriving DecidableEq

/-- `state.approve(interruption)`. -/
def RunState.approveItem (rs : RunState) (i : Interruption) : RunState :=
  { rs with approvedItems := rs.approvedItems ++ [i] }

/-- `state.reject(interruption)`. -/
def RunState.rejectItem (rs : RunState) (i : Interruption) : RunState :=
  { rs with rejectedItems := rs.rejectedItems ++ [i] }

/-- One entry of `_pendingApprovals`. -/
structure PendingApproval where
  interruption : Interruption
  approved : Option Bool := none
  groupId : Option String := none
  deriving DecidableEq

/-- Conversation history items (`AgentInputItem`): only the shape needed
by the embedding (the `user(message)` constructor and opaque others). -/
inductive InputItem where
  | user : String → InputItem
  | assistant : String → InputItem
  | item : String → InputItem
  deriving DecidableEq

/-- Per-provider settings entry (`settingsModel.getProvider`). -/
structure ProviderConfig where
  provider : String
  model : String
  apiKey : String
  deriving DecidableEq

/-- Provider metadata from the provider registry
(`providerRegistry.getProviderInfo`). -/
structure ProviderInfo where
  apiKeyRequirement : String
  supportsToolCalling : Option Bool := none
  deriving DecidableEq

/-- The slice of `AISettingsModel.config` plus registries consumed by
`AgentManager`. -/
structure Config where
  activeProvider : String
  providers : List (String × ProviderConfig)
  registry : List (String × ProviderInfo)
  hasProviderRegistry : Bool
  toolsEnabled : Bool
  deriving DecidableEq

/-- First-match association-list lookup (JS `Map.get`). -/
def lookupStr {α : Type} (k : String) : List (String × α) → Option α
  | [] => none
  | (k', v) :: rest => if k' = k then some v else lookupStr k rest

/-- JS `Map.set`: replace in place or append. -/
def mapSet {α : Type} (k : String) (v : α) : List (String × α) → List (String × α)
  | [] => [(k, v)]
  | (k', v') :: rest => if k' = k then (k, v) :: rest else (k', v') :: mapSet k v rest

/-- JS `Map.delete`. -/
def mapDelete {α : Type} (k : String) : List (String × α) → List (String × α)
  | [] => []
  | (k', v') :: rest => if k' = k then rest else (k', v') :: mapDelete k rest

/-- The mutable state of one `AgentManager` instance.  `_runner` is
modelled by a generation counter, `_agent` by a Boolean presence flag and
the id generator by `freshCounter`. -/
structure AgentState where
  config : Config
  history : List InputItem
  pendingApprovals : List (String × PendingApproval)
  interruptedState : Option RunState
  tokenUsage : TokenUsage
  freshCounter : Nat
  runnerGen : Nat
  agent : Bool
  isInitializing : Bool
  deriving DecidableEq

/-! ## Events and outputs -/

/-- The closed event vocabulary (`IAgentEventTypeMap`).  The
`grouped_approval_required` payload lists
`(interruptionId, toolName, toolInput)` triples. -/
inductive AgentEvent where
  | message_start (messageId : String)
  | message_chunk (messageId chunk fullContent : String)
  | message_complete (messageId content : String)
  | tool_call_start (callId toolName input : String)
  | tool_call_complete (callId toolName output : String) (isError : Bool)
  | tool_approval_required (interruptionId toolName toolInput : String)
      (callId : Option String)
  | grouped_approval_required (groupId : String)
      (approvals : List (String × String × String))
  | error (e : String)
  deriving DecidableEq

/-- Argument of a `runner.run` invocation: the fresh history on the first
call, the captured interrupted state on a resume. -/
inductive RunArg where
  | fromHistory : List InputItem → RunArg
  | fromState : RunState → RunArg
  deriving DecidableEq

/-- Observable outputs: `agentEvent` signal emissions, `tokenUsageChanged`
signal emissions, `console.warn` diagnostics, and (as an observation point
for the temporal claims) each `runner.run` invocation together with the
size of `_pendingApprovals` at that moment. -/
inductive Output where
  | evt : AgentEvent → Output
  | tokenUsageChanged : TokenUsage → Output
  | log : String → Output
  | runInvoked : RunArg → Nat → Output
  deriving DecidableEq

/-! ## Approval gate operations -/

/-- Embeds `AgentManager.clearHistory` (agent.ts:407): empties history,
replaces the runner, clears pending approvals and the interrupted state,
resets token usage and emits `tokenUsageChanged`. -/
def clearHistory (st : AgentState) : AgentState × List Output :=
  ({ st with
      history := []
      runnerGen := st.runnerGen + 1
      pendingApprovals := []
      interruptedState := none
      tokenUsage := { inputTokens := 0, outputTokens := 0 } },
   [Output.tokenUsageChanged { inputTokens := 0, outputTokens := 0 }])

/-- Embeds `AgentManager.approveToolCall` (agent.ts:516): unknown ids are
a logged no-op; otherwise the verdict is applied to the interrupted run
state (when present), the record is marked approved and deleted. -/
def approveToolCall (interruptionId : String) (st : AgentState) :
    AgentState × List Output :=
  match lookupStr interruptionId st.pendingApprovals with
  | none =>
      (st, [Output.log ("No pending approval found for interruption " ++ interruptionId)])
  | some pending =>
      let st1 :=
        match st.interruptedState with
        | some rs => { st with interruptedState := some (rs.approveItem pending.interruption) }
        | none => st
      -- `pending.approved = true` mutates the record that the very next
      -- line deletes from the map, so the net map effect is the deletion.
      ({ st1 with pendingApprovals := mapDelete interruptionId st1.pendingApprovals }, [])

/-- Embeds `AgentManager.rejectToolCall` (agent.ts:537). -/
def rejectToolCall (interruptionId : String) (st : AgentState) :
    AgentState × List Output :=
  match lookupStr interruptionId st.pendingApprovals with
  | none =>
      (st, [Output.log ("No pending approval found for interruption " ++ interruptionId)])
  | some pending =>
      let st1 :=
        match st.interruptedState with
        | some rs => { st with interruptedState := some (rs.rejectItem pending.interruption) }
        | none => st
      ({ st1 with pendingApprovals := mapDelete interruptionId st1.pendingApprovals }, [])

/-- Embeds `AgentManager.approveGroupedToolCalls` (agent.ts:559): apply
the approve verdict to every listed id still pending with that group id. -/
def approveGroupedToolCalls (groupId : String) : List String → AgentState → AgentState
  | [], st => st
  | id :: rest, st =>
    let st1 :=
      match lookupStr id st.pendingApprovals with
      | some pending =>
        if pending.groupId = some groupId then
          let stA :=
            match st.interruptedState with
            | some rs => { st with interruptedState := some (rs.approveItem pending.interruption) }
            | none => st
          { stA with pendingApprovals := mapDelete id stA.pendingApprovals }
        else st
      | none => st
    approveGroupedToolCalls groupId rest st1

/-- Embeds `AgentManager.rejectGroupedToolCalls` (agent.ts:580). -/
def rejectGroupedToolCalls (groupId : String) : List String → AgentState → AgentState
  | [], st => st
  | id :: rest, st =>
    let st1 :=
      match lookupStr id st.pendingApprovals with
      | some pending =>
        if pending.groupId = some groupId then
          let stA :=
            match st.interruptedState with
            | some rs => { st with interruptedState := some (rs.rejectItem pending.interruption) }
            | none => st
          { stA with pendingApprovals := mapDelete id stA.pendingApprovals }
        else st
      | none => st
    rejectGroupedToolCalls groupId rest st1

/-! ## Configuration validity and agent initialization -/

/-- Embeds `AgentManager.hasValidConfig` (agent.ts:379). -/
def hasValidConfig (c : Config) : Bool :=
  match lookupStr c.activeProvider c.providers with
  | none => false
  | some pc =>
    if pc.model = "" then false
    else if c.hasProviderRegistry then
      match lookupStr pc.provider c.registry with
      | some info => if info.apiKeyRequirement = "required" then pc.apiKey ≠ "" else true
      | none => true
    else true

/-- Embeds `AgentManager._createModel` (agent.ts:873).  The active
provider must exist; for the SAP provider the external
`createSAPAIProvider` and for the rest `createModel`
(`src/providers/models.ts`, not part of the sources) are
*Modelled from the spec:* a "model provider factory … must fail fast with
a typed error if required credential is absent for providers that mandate
one" (and a provider id that no registered factory serves yields an
error).  The built-in factories in the sources confirm this: they throw
exactly when `options.apiKey` is missing for a provider whose
`apiKeyRequirement` is `required`, and never inspect `options.model`. -/
def createModelResult (c : Config) : Except String Unit :=
  if c.activeProvider = "" then Except.error "No active provider configured"
  else
    match lookupStr c.activeProvider c.providers with
    | none => Except.error "No active provider configured"
    | some pc =>
      if pc.provider = "sap" then
        if pc.apiKey = "" then Except.error "API key required for SAP AI Core"
        else Except.ok ()
      else
        match lookupStr pc.provider c.registry with
        | none => Except.error "Unknown provider"
        | some info =>
          if info.apiKeyRequirement = "required" && pc.apiKey = "" then
            Except.error "API key required"
          else Except.ok ()

/-- Embeds `AgentManager.initializeAgent` (agent.ts:600): re-entrant calls
return immediately via the `_isInitializing` guard; otherwise the agent is
rebuilt, becoming available exactly when model creation succeeds (on
failure the error is logged and `_agent` stays `null`). -/
def initAgent (st : AgentState) : AgentState :=
  if st.isInitializing then st
  else
    match createModelResult st.config with
    | Except.ok _ => { st with agent := true }
    | Except.error _ => { st with agent := false }

/-! ## The streamed protocol consumed by `_processRunResult` -/

/-- The `event.data.event` payload probed when `data.type === 'model'`:
only the `tool-call` shape is acted upon. -/
inductive ModelEvent where
  | toolCall (toolCallId toolName input : String)
  | otherModelEvent
  deriving DecidableEq

/-- A tool result: a string, or any other value which the code
stringifies (modelled through the JSON model). -/
inductive ToolOutputValue where
  | str : String → ToolOutputValue
  | other : Json → ToolOutputValue

/-- The `rawItem` of a `RunToolCallOutputItem`. -/
structure ToolResultRawItem where
  callId : String
  itemType : String
  status : String
  name : String
  deriving DecidableEq

/-- The `item` of a `tool_output` run-item stream event. -/
structure ToolCallOutputItem where
  rawItem : ToolResultRawItem
  output : ToolOutputValue

/-- The low-level streamed items iterated by `_processRunResult`.  The
`raw_model_stream_event` payloads carry the probed fields; every other
shape is covered by the `otherRaw` / `otherEvent` constructors, which the
code ignores. -/
inductive StreamEvent where
  | responseStarted
  | outputTextDelta (delta : Option String)
  | responseDone (usage : TokenUsage)
  | modelEvent (ev : ModelEvent)
  | otherRaw
  | runItem (name : String) (item : ToolCallOutputItem)
  | otherEvent

/-- The two loop-local variables of `_processRunResult`. -/
structure ProcState where
  fullResponse : String
  currentMessageId : Option String
  deriving DecidableEq

/-- Embeds `AgentManager._handleToolCallStart` (agent.ts:742). -/
def handleToolCallStart (me : ModelEvent) : List Output :=
  match me with
  | ModelEvent.toolCall toolCallId toolName input =>
      [Output.evt (AgentEvent.tool_call_start toolCallId toolName (formatToolInput input))]
  | ModelEvent.otherModelEvent => []

/-- Embeds `AgentManager._handleToolOutput` (agent.ts:761): stringify a
non-string output, flag `isError` exactly when the raw item is a
`function_call_result` with status `incomplete`. -/
def handleToolOutput (item : ToolCallOutputItem) : List Output :=
  let resultText :=
    match item.output with
    | ToolOutputValue.str s => s
    | ToolOutputValue.other v => jsonRender v 0
  let isError :=
    item.rawItem.itemType = "function_call_result" && item.rawItem.status = "incomplete"
  let toolName :=
    if item.rawItem.itemType = "function_call_result" then item.rawItem.name
    else "Unknown Tool"
  [Output.evt (AgentEvent.tool_call_complete item.rawItem.callId toolName resultText isError)]

/-- One iteration of the `for await` loop of
`AgentManager._processRunResult` (agent.ts:661). -/
def procStep (ag : AgentState) (ps : ProcState) :
    StreamEvent → AgentState × ProcState × List Output
  | StreamEvent.responseStarted =>
    let newId := mkMsgId ag.freshCounter
    ({ ag with freshCounter := ag.freshCounter + 1 },
     { fullResponse := "", currentMessageId := some newId },
     [Output.evt (AgentEvent.message_start newId)])
  | StreamEvent.outputTextDelta delta =>
    match ps.currentMessageId with
    | some mid =>
      let chunk := jsOr delta ""
      let full := ps.fullResponse ++ chunk
      (ag, { ps with fullResponse := full },
       [Output.evt (AgentEvent.message_chunk mid chunk full)])
    | none => (ag, ps, [])
  | StreamEvent.responseDone usage =>
    let completeOut :=
      match ps.currentMessageId with
      | some mid => [Output.evt (AgentEvent.message_complete mid ps.fullResponse)]
      | none => []
    let newUsage : TokenUsage :=
      { inputTokens := ag.tokenUsage.inputTokens + usage.inputTokens
        outputTokens := ag.tokenUsage.outputTokens + usage.outputTokens }
    ({ ag with tokenUsage := newUsage },
     { ps with currentMessageId := none },
     completeOut ++ [Output.tokenUsageChanged newUsage])
  | StreamEvent.modelEvent me => (ag, ps, handleToolCallStart me)
  | StreamEvent.otherRaw => (ag, ps, [])
  | StreamEvent.runItem name item =>
    if name = "tool_output" then (ag, ps, handleToolOutput item) else (ag, ps, [])
  | StreamEvent.otherEvent => (ag, ps, [])

/-- The full `for await` loop threading the two locals. -/
def procSteps : List StreamEvent → AgentState → ProcState →
    AgentState × ProcState × List Output
  | [], ag, ps => (ag, ps, [])
  | ev :: evs, ag, ps =>
    let (ag1, ps1, o1) := procStep ag ps ev
    let (ag2, ps2, o2) := procSteps evs ag1 ps1
    (ag2, ps2, o1 ++ o2)

/-- Embeds `AgentManager._processRunResult`: consume the streamed items
with `fullResponse = ''` and `currentMessageId = null`. -/
def processRunResult (evs : List StreamEvent) (ag : AgentState) :
    AgentState × List Output :=
  let p := procSteps evs ag { fullResponse := "", currentMessageId := none }
  (p.1, p.2.2)

/-! ## Surfacing interruptions -/

/-- Embeds `AgentManager._handleSingleToolApproval` (agent.ts:794). -/
def handleSingleToolApproval (i : Interruption) (st : AgentState) :
    AgentState × List Output :=
  let toolName := jsOr i.rawItem.name "Unknown Tool"
  let toolInput := jsOr i.rawItem.arguments "\x7b\x7d"
  let interruptionId := mkIntId st.freshCounter
  let callId := if i.rawItem.itemType = "function_call" then some i.rawItem.callId else none
  ({ st with
      freshCounter := st.freshCounter + 1
      pendingApprovals :=
        mapSet interruptionId { interruption := i } st.pendingApprovals },
   [Output.evt (AgentEvent.tool_approval_required interruptionId toolName
      (formatToolInput toolInput) callId)])

/-- The `interruptions.map` body of `_handleGroupedToolApprovals`:
register each interruption under a fresh id tagged with the group id and
collect the event's approval entries. -/
def registerGroup (groupId : String) : List Interruption → AgentState →
    AgentState × List (String × String × String)
  | [], st => (st, [])
  | i :: rest, st =>
    let toolName := jsOr i.rawItem.name "Unknown Tool"
    let toolInput := jsOr i.rawItem.arguments "\x7b\x7d"
    let interruptionId := mkIntId st.freshCounter
    let st1 :=
      { st with
          freshCounter := st.freshCounter + 1
          pendingApprovals :=
            mapSet interruptionId
              { interruption := i, groupId := some groupId } st.pendingApprovals }
    let (st2, entries) := registerGroup groupId rest st1
    (st2, (interruptionId, toolName, formatToolInput toolInput) :: entries)

/-- Embeds `AgentManager._handleGroupedToolApprovals` (agent.ts:822). -/
def handleGroupedToolApprovals (ints : List Interruption) (st : AgentState) :
    AgentState × List Output :=
  let groupId := mkGroupId st.freshCounter
  let st0 := { st with freshCounter := st.freshCounter + 1 }
  let (st1, approvals) := registerGroup groupId ints st0
  (st1, [Output.evt (AgentEvent.grouped_approval_required groupId approvals)])

/-- The branch at agent.ts:476: more than one interruption goes through
the grouped path, a single one through the single path. -/
def handleInterruptions (ints : List Interruption) (st : AgentState) :
    AgentState × List Output :=
  if ints.length > 1 then handleGroupedToolApprovals ints st
  else
    match ints with
    | i :: _ => handleSingleToolApproval i st
    | [] => (st, [])

/-! ## The run loop (`generateResponse`) -/

/-- What one settled `runner.run` stream yields: the streamed items, the
`interruptions` array, the resumable `state` and the final `history`. -/
structure RunResult where
  events : List StreamEvent
  interruptions : List Interruption
  state : RunState
  finalHistory : List InputItem

/-- A `runner.run` invocation either settles or throws (network/model
failure surfacing while streaming). -/
inductive RunOutcome where
  | ok : RunResult → RunOutcome
  | err : String → RunOutcome

/-- External calls that may resolve pending approvals while the run loop
busy-waits on `_pendingApprovals.size > 0`. -/
inductive ApprovalAction where
  | approve : String → ApprovalAction
  | reject : String → ApprovalAction
  | approveGroup : String → List String → ApprovalAction
  | rejectGroup : String → List String → ApprovalAction
  deriving DecidableEq

/-- The per-item resolution primitives. -/
def ApprovalAction.isSingleResolve : ApprovalAction → Bool
  | ApprovalAction.approve _ => true
  | ApprovalAction.reject _ => true
  | _ => false

/-- Whether an action resolves the given interruption id. -/
def ApprovalAction.targets : ApprovalAction → String → Bool
  | ApprovalAction.approve j, id => j = id
  | ApprovalAction.reject j, id => j = id
  | _, _ => false

/-- Dispatch an external call to the corresponding method. -/
def applyAction : ApprovalAction → AgentState → AgentState × List Output
  | ApprovalAction.approve id, st => approveToolCall id st
  | ApprovalAction.reject id, st => rejectToolCall id st
  | ApprovalAction.approveGroup g ids, st => (approveGroupedToolCalls g ids st, [])
  | ApprovalAction.rejectGroup g ids, st => (rejectGroupedToolCalls g ids st, [])

/-- The busy-wait `while (this._pendingApprovals.size > 0) await …`
(agent.ts:483) interleaved with the external resolution calls: the loop
exits as soon as the pending set is empty; if the supplied calls are
exhausted while approvals are still pending the loop never exits
(`resolved = false`). -/
def waitForApprovals : List ApprovalAction → AgentState →
    AgentState × List Output × Bool
  | acts, st =>
    if st.pendingApprovals.isEmpty then (st, [], true)
    else
      match acts with
      | [] => (st, [], false)
      | a :: rest =>
        let (st1, o1) := applyAction a st
        let (st2, o2, resolved) := waitForApprovals rest st1
        (st2, o1 ++ o2, resolved)

/-- How one `generateResponse` call settles in the model. -/
inductive GenOutcome where
  | completed
  | errored : String → GenOutcome
  | stuckAwaitingApproval
  | scriptEnded
  deriving DecidableEq

/-- The `while (hasInterruptions)` loop of `generateResponse`
(agent.ts:472): capture the interrupted state, surface the batch, wait for
the pending set to empty, then re-invoke the run from the captured state
and process its stream. -/
def genIter : RunResult → List (List ApprovalAction × RunOutcome) → AgentState →
    AgentState × List Output × GenOutcome
  | r, script, st =>
    match r.interruptions with
    | [] =>
      ({ st with interruptedState := none, history := r.finalHistory }, [], GenOutcome.completed)
    | i :: irest =>
      let st0 := { st with interruptedState := some r.state }
      let hi := handleInterruptions (i :: irest) st0
      match script with
      | [] => (hi.1, hi.2, GenOutcome.scriptEnded)
      | (acts, next) :: scriptRest =>
        let w := waitForApprovals acts hi.1
        if w.2.2 then
          let inv := Output.runInvoked (RunArg.fromState r.state) w.1.pendingApprovals.length
          match next with
          | RunOutcome.err e => (w.1, hi.2 ++ w.2.1 ++ [inv], GenOutcome.errored e)
          | RunOutcome.ok r2 =>
            let pr := processRunResult r2.events w.1
            let gi := genIter r2 scriptRest pr.1
            (gi.1, hi.2 ++ w.2.1 ++ [inv] ++ pr.2 ++ gi.2.1, gi.2.2)
        else (w.1, hi.2 ++ w.2.1, GenOutcome.stuckAwaitingApproval)

/-- Embeds `AgentManager.generateResponse` (agent.ts:429).  The streamed
backend is supplied as a script: the outcome of the first `runner.run`
plus, for every interruption batch, the external resolution calls made
while the loop waits and the outcome of the resumed run.  A thrown error
is caught and surfaced as exactly one `error` event; on success the
interrupted state is cleared and the final history committed. -/
def generateResponse (message : String) (first : RunOutcome)
    (script : List (List ApprovalAction × RunOutcome)) (st : AgentState) :
    AgentState × List Output × GenOutcome :=
  let stA := if st.agent then st else initAgent st
  if stA.agent then
    let stB := { stA with history := stA.history ++ [InputItem.user message] }
    let inv := Output.runInvoked (RunArg.fromHistory stB.history) stB.pendingApprovals.length
    match first with
    | RunOutcome.err e =>
      (stB, [inv, Output.evt (AgentEvent.error e)], GenOutcome.errored e)
    | RunOutcome.ok r =>
      let pr := processRunResult r.events stB
      let gi := genIter r script pr.1
      match gi.2.2 with
      | GenOutcome.errored e =>
        (gi.1, inv :: (pr.2 ++ gi.2.1 ++ [Output.evt (AgentEvent.error e)]), GenOutcome.errored e)
      | oc => (gi.1, inv :: (pr.2 ++ gi.2.1), oc)
  else
    -- `throw new Error('Failed to initialize agent')`, caught by the
    -- surrounding try/catch before the user message is appended and
    -- before any `runner.run` call.
    (stA, [Output.evt (AgentEvent.error "Failed to initialize agent")],
     GenOutcome.errored "Failed to initialize agent")

/-! ## Trace observables -/

/-- Concatenation of a list of strings. -/
def strJoin : List String → String
  | [] => ""
  | s :: rest => s ++ strJoin rest

/-- The chunk fragments emitted for a given message id, in order. -/
def chunksFor (m : String) : List Output → List String
  | [] => []
  | Output.evt (AgentEvent.message_chunk m' c _) :: rest =>
      if m' = m then c :: chunksFor m rest else chunksFor m rest
  | _ :: rest => chunksFor m rest

/-- The payloads of the `error` events of a trace, in order. -/
def errorEventsOf : List Output → List String
  | [] => []
  | Output.evt (AgentEvent.error e) :: rest => e :: errorEventsOf rest
  | _ :: rest => errorEventsOf rest

/-- Events of a running (or resumed) stream: message and tool-call
lifecycle events. -/
def isRunEvent : Output → Bool
  | Output.evt (AgentEvent.message_start _) => true
  | Output.evt (AgentEvent.message_chunk _ _ _) => true
  | Output.evt (AgentEvent.message_complete _ _) => true
  | Output.evt (AgentEvent.tool_call_start _ _ _) => true
  | Output.evt (AgentEvent.tool_call_complete _ _ _ _) => true
  | _ => false

/-- Number of `tokenUsageChanged` emissions in a trace. -/
def countNotifies : List Output → Nat
  | [] => 0
  | Output.tokenUsageChanged _ :: rest => 1 + countNotifies rest
  | _ :: rest => countNotifies rest

/-- Number of `tool_approval_required` events in a trace. -/
def countSingleApprovalEvents : List Output → Nat
  | [] => 0
  | Output.evt (AgentEvent.tool_approval_required _ _ _ _) :: rest =>
      1 + countSingleApprovalEvents rest
  | _ :: rest => countSingleApprovalEvents rest

/-- Number of `grouped_approval_required` events in a trace. -/
def countGroupedApprovalEvents : List Output → Nat
  | [] => 0
  | Output.evt (AgentEvent.grouped_approval_required _ _) :: rest =>
      1 + countGroupedApprovalEvents rest
  | _ :: rest => countGroupedApprovalEvents rest

/-- Sum of the `inputTokens` reported by the turn-completion events of a
stream. -/
def sumInputTokens : List StreamEvent → Nat
  | [] => 0
  | StreamEvent.responseDone u :: rest => u.inputTokens + sumInputTokens rest
  | _ :: rest => sumInputTokens rest

/-- Sum of the `outputTokens` reported by the turn-completion events. -/
def sumOutputTokens : List StreamEvent → Nat
  | [] => 0
  | StreamEvent.responseDone u :: rest => u.outputTokens + sumOutputTokens rest
  | _ :: rest => sumOutputTokens rest

/-- Number of turn-completion (`response_done`) events of a stream. -/
def countResponseDone : List StreamEvent → Nat
  | [] => 0
  | StreamEvent.responseDone _ :: rest => 1 + countResponseDone rest
  | _ :: rest => countResponseDone rest

@[simp] theorem countNotifies_append (a b : List Output) :
    countNotifies (a ++ b) = countNotifies a + countNotifies b := by
  induction a with
  | nil => simp [countNotifies]
  | cons o rest ih =>
    cases o with
    | tokenUsageChanged u => simp [countNotifies, ih]; omega
    | evt e => simp [countNotifies, ih]
    | log s => simp [countNotifies, ih]
    | runInvoked a n => simp [countNotifies, ih]

/-- Token accounting over one streamed run: counters accumulate by
addition and one `tokenUsageChanged` notification is raised per
turn-completion event. -/
theorem procSteps_tokens (evs : List StreamEvent) (ag : AgentState) (ps : ProcState) :
    (procSteps evs ag ps).1.tokenUsage.inputTokens
        = ag.tokenUsage.inputTokens + sumInputTokens evs ∧
    (procSteps evs ag ps).1.tokenUsage.outputTokens
        = ag.tokenUsage.outputTokens + sumOutputTokens evs ∧
    countNotifies (procSteps evs ag ps).2.2 = countResponseDone evs := by
  induction evs generalizing ag ps with
  | nil => simp [procSteps, sumInputTokens, sumOutputTokens, countResponseDone, countNotifies]
  | cons ev rest ih =>
    cases ev with
    | responseStarted =>
      simpa [procSteps, procStep, sumInputTokens, sumOutputTokens, countResponseDone,
        countNotifies] using ih _ _
    | outputTextDelta d =>
      cases h : ps.currentMessageId with
      | some mid =>
        simpa [procSteps, procStep, h, sumInputTokens, sumOutputTokens, countResponseDone,
          countNotifies] using ih _ _
      | none =>
        simpa [procSteps, procStep, h, sumInputTokens, sumOutputTokens, countResponseDone,
          countNotifies] using ih _ _
    | responseDone u =>
      cases h : ps.currentMessageId with
      | some mid =>
        obtain ⟨h1, h2, h3⟩ := ih ({ ag with tokenUsage :=
          { inputTokens := ag.tokenUsage.inputTokens + u.inputTokens
            outputTokens := ag.tokenUsage.outputTokens + u.outputTokens } })
          ({ ps with currentMessageId := none })
        simp [procSteps, procStep, h, sumInputTokens, sumOutputTokens, countResponseDone,
          countNotifies]
        exact ⟨by rw [h1, Nat.add_assoc], by rw [h2, Nat.add_assoc], h3⟩
      | none =>
        obtain ⟨h1, h2, h3⟩ := ih ({ ag with tokenUsage :=
          { inputTokens := ag.tokenUsage.inputTokens + u.inputTokens
            outputTokens := ag.tokenUsage.outputTokens + u.outputTokens } })
          ({ ps with currentMessageId := none })
        simp [procSteps, procStep, h, sumInputTokens, sumOutputTokens, countResponseDone,
          countNotifies]
        exact ⟨by rw [h1, Nat.add_assoc], by rw [h2, Nat.add_assoc], h3⟩
    | modelEvent me =>
      cases me with
      | toolCall a b c =>
        simpa [procSteps, procStep, handleToolCallStart, sumInputTokens, sumOutputTokens,
          countResponseDone, countNotifies] using ih _ _
      | otherModelEvent =>
        simpa [procSteps, procStep, handleToolCallStart, sumInputTokens, sumOutputTokens,
          countResponseDone, countNotifies] using ih _ _
    | otherRaw =>
      simpa [procSteps, procStep, sumInputTokens, sumOutputTokens, countResponseDone,
        countNotifies] using ih _ _
    | runItem name item =>
      by_cases h : name = "tool_output"
      · simpa [procSteps, procStep, h, handleToolOutput, sumInputTokens, sumOutputTokens,
          countResponseDone, countNotifies] using ih _ _
      · simpa [procSteps, procStep, h, sumInputTokens, sumOutputTokens, countResponseDone,
          countNotifies] using ih _ _
    | otherEvent =>
      simpa [procSteps, procStep, sumInputTokens, sumOutputTokens, countResponseDone,
        countNotifies] using ih _ _

/-- Unfolding equation for `processRunResult`. -/
theorem processRunResult_eq (evs : List StreamEvent) (ag : AgentState) :
    processRunResult evs ag =
      ((procSteps evs ag { fullResponse := "", currentMessageId := none }).1,
       (procSteps evs ag { fullResponse := "", currentMessageId := none }).2.2) := rfl

/-- **C4**: token usage counters accumulate by addition: after a streamed
run, `inputTokens`/`outputTokens` equal their previous values plus the sum
reported by the run's turn-completion events, one `tokenUsageChanged`
notification is raised per such addition, and `clearHistory` resets both
counters to zero and empties the conversation history. -/
theorem c4_token_accumulation (evs : List StreamEvent) (st : AgentState) :
    (processRunResult evs st).1.tokenUsage.inputTokens
        = st.tokenUsage.inputTokens + sumInputTokens evs ∧
    (processRunResult evs st).1.tokenUsage.outputTokens
        = st.tokenUsage.outputTokens + sumOutputTokens evs ∧
    countNotifies (processRunResult evs st).2 = countResponseDone evs ∧
    (clearHistory st).1.tokenUsage = { inputTokens := 0, outputTokens := 0 } ∧
    (clearHistory st).1.history = [] := by
  obtain ⟨h1, h2, h3⟩ :=
    procSteps_tokens evs st { fullResponse := "", currentMessageId := none }
  rw [processRunResult_eq]
  exact ⟨h1, h2, h3, rfl, rfl⟩

/-- **C10**: `clearHistory` empties the history, replaces the runner,
clears the whole pending-approval set, nulls the interrupted run state and
zeroes the token counters (emitting only the usage notification, no
approve/reject verdict); a run suspended waiting on the pending set then
observes it empty and its wait loop exits at once. -/
theorem c10_clearHistory_discards_pending (st : AgentState) (acts : List ApprovalAction) :
    clearHistory st =
      ({ st with
          history := []
          runnerGen := st.runnerGen + 1
          pendingApprovals := []
          interruptedState := none
          tokenUsage := { inputTokens := 0, outputTokens := 0 } },
       [Output.tokenUsageChanged { inputTokens := 0, outputTokens := 0 }]) ∧
    waitForApprovals acts (clearHistory st).1 = ((clearHistory st).1, [], true) := by
  refine ⟨rfl, ?_⟩
  rw [waitForApprovals.eq_def]
  simp [clearHistory]

/-- **C7**: approving or rejecting an interruption id absent from the
pending set is a no-op: no exception, the state (pending set, history,
token counters, interrupted run state) is returned unchanged, and the only
output is the `console.warn` diagnostic — no event. -/
theorem c7_unknown_id_noop (id : String) (st : AgentState)
    (h : lookupStr id st.pendingApprovals = none) :
    approveToolCall id st =
      (st, [Output.log ("No pending approval found for interruption " ++ id)]) ∧
    rejectToolCall id st =
      (st, [Output.log ("No pending approval found for interruption " ++ id)]) := by
  constructor <;> simp [approveToolCall, rejectToolCall, h]

/-! Concrete sample data shared by the witnesses. -/

/-- A sample interruption: a `run_cell` tool call needing approval. -/
def sampleInterruption : Interruption :=
  { rawItem :=
      { name := some "run_cell"
        arguments := some "\x7b\x7d"
        itemType := "function_call"
        callId := "call-1" } }

/-- A second sample interruption. -/
def sampleInterruption2 : Interruption :=
  { rawItem :=
      { name := some "delete_file"
        arguments := none
        itemType := "function_call"
        callId := "call-2" } }

/-- A sample resolvable configuration. -/
def sampleConfig : Config :=
  { activeProvider := "p1"
    providers := [("p1", { provider := "generic", model := "m", apiKey := "" })]
    registry := [("generic", { apiKeyRequirement := "optional" })]
    hasProviderRegistry := true
    toolsEnabled := true }

/-- A sample idle agent state with an initialized agent. -/
def sampleState : AgentState :=
  { config := sampleConfig
    history := []
    pendingApprovals := []
    interruptedState := none
    tokenUsage := { inputTokens := 0, outputTokens := 0 }
    freshCounter := 0
    runnerGen := 0
    agent := true
    isInitializing := false }

theorem c7_witness :
    lookupStr "int-x" sampleState.pendingApprovals = none ∧
    approveToolCall "int-x" sampleState =
      (sampleState, [Output.log ("No pending approval found for interruption " ++ "int-x")]) := by
  exact ⟨rfl, (c7_unknown_id_noop "int-x" sampleState rfl).1⟩

/-! ## Association-list lemmas -/

theorem lookupStr_mapSet_self {α : Type} (k : String) (v : α) (l : List (String × α)) :
    lookupStr k (mapSet k v l) = some v := by
  induction l with
  | nil => simp [mapSet, lookupStr]
  | cons p rest ih =>
    by_cases h : p.1 = k
    · simp [mapSet, lookupStr, h]
    · simp [mapSet, lookupStr, h, ih]

theorem lookupStr_mapSet_ne {α : Type} (k k' : String) (v : α) (l : List (String × α))
    (h : k' ≠ k) : lookupStr k (mapSet k' v l) = lookupStr k l := by
  induction l with
  | nil => simp [mapSet, lookupStr, h]
  | cons p rest ih =>
    by_cases hp : p.1 = k'
    · simp [mapSet, lookupStr, hp, h]
    · by_cases hk : p.1 = k
      · simp [mapSet, lookupStr, hp, hk, Ne.symm h]
      · simp [mapSet, lookupStr, hp, hk, ih]

theorem mkIntId_injective : Function.Injective mkIntId := by
  intro a b h
  apply natTag_injective
  have := congrArg (fun s => s.data) h
  simp only [mkIntId, String.data_append] at this
  exact String.ext (List.append_cancel_left this)

/-! ## The grouped approval path -/

theorem registerGroup_lookup_lt (g : String) (ints : List Interruption) (st : AgentState)
    (k : Nat) (h : k < st.freshCounter) :
    lookupStr (mkIntId k) (registerGroup g ints st).1.pendingApprovals
      = lookupStr (mkIntId k) st.pendingApprovals := by
  induction ints generalizing st with
  | nil => simp [registerGroup]
  | cons i rest ih =>
    cases hp : registerGroup g rest
      { st with
          freshCounter := st.freshCounter + 1
          pendingApprovals :=
            mapSet (mkIntId st.freshCounter)
              { interruption := i, groupId := some g } st.pendingApprovals } with
    | mk st2 entries =>
      have hne : mkIntId st.freshCounter ≠ mkIntId k := by
        intro he
        exact absurd (mkIntId_injective he) (by omega)
      have := ih ({ st with
          freshCounter := st.freshCounter + 1
          pendingApprovals :=
            mapSet (mkIntId st.freshCounter)
              { interruption := i, groupId := some g } st.pendingApprovals }) (by simp; omega)
      rw [hp] at this
      simp only [registerGroup, hp]
      rw [this]
      exact lookupStr_mapSet_ne _ _ _ _ hne

theorem registerGroup_spec (g : String) (ints : List Interruption) (st : AgentState) :
    (registerGroup g ints st).2.length = ints.length ∧
    (∀ p ∈ (registerGroup g ints st).2.zip ints,
        p.1.2.1 = jsOr p.2.rawItem.name "Unknown Tool" ∧
        p.1.2.2 = formatToolInput (jsOr p.2.rawItem.arguments "\x7b\x7d")) ∧
    (∀ e ∈ (registerGroup g ints st).2, ∃ pa,
        lookupStr e.1 (registerGroup g ints st).1.pendingApprovals = some pa ∧
        pa.groupId = some g) := by
  induction ints generalizing st with
  | nil => simp [registerGroup]
  | cons i rest ih =>
    set st1 : AgentState :=
      { st with
          freshCounter := st.freshCounter + 1
          pendingApprovals :=
            mapSet (mkIntId st.freshCounter)
              { interruption := i, groupId := some g } st.pendingApprovals } with hst1
    obtain ⟨ihl, ihz, ihp⟩ := ih st1
    cases hp : registerGroup g rest st1 with
    | mk st2 entries =>
      rw [hp] at ihl ihz ihp
      simp only [registerGroup, ← hst1, hp]
      refine ⟨by simp [ihl], ?_, ?_⟩
      · intro p hpz
        simp only [List.zip_cons_cons, List.mem_cons] at hpz
        rcases hpz with h1 | h2
        · subst h1; exact ⟨rfl, rfl⟩
        · exact ihz p h2
      · intro e he
        simp only [List.mem_cons] at he
        rcases he with h1 | h2
        · subst h1
          have hlt : lookupStr (mkIntId st.freshCounter) st2.pendingApprovals
              = lookupStr (mkIntId st.freshCounter) st1.pendingApprovals := by
            have := registerGroup_lookup_lt g rest st1 st.freshCounter (by simp [hst1])
            rw [hp] at this
            exact this
          refine ⟨{ interruption := i, groupId := some g }, ?_, rfl⟩
          rw [hlt, hst1]
          exact lookupStr_mapSet_self _ _ _
        · exact ihp e h2

/-- **C3**: a settled run with exactly one interruption emits exactly one
`tool_approval_required` event and zero `grouped_approval_required`
events; a run with more than one emits exactly one
`grouped_approval_required` event (and no single-approval event) whose
approvals list has one entry per interruption — carrying its fresh
interruption id, tool name and pretty-printed input — and every registered
entry is tagged with the one freshly generated group id. -/
theorem c3_approval_event_arity :
    (∀ (i : Interruption) (st : AgentState),
        countSingleApprovalEvents (handleInterruptions [i] st).2 = 1 ∧
        countGroupedApprovalEvents (handleInterruptions [i] st).2 = 0) ∧
    (∀ (ints : List Interruption) (st : AgentState), 1 < ints.length →
        countGroupedApprovalEvents (handleInterruptions ints st).2 = 1 ∧
        countSingleApprovalEvents (handleInterruptions ints st).2 = 0 ∧
        ∃ entries,
          (handleInterruptions ints st).2 =
            [Output.evt (AgentEvent.grouped_approval_required
                (mkGroupId st.freshCounter) entries)] ∧
          entries.length = ints.length ∧
          (∀ p ∈ entries.zip ints,
              p.1.2.1 = jsOr p.2.rawItem.name "Unknown Tool" ∧
              p.1.2.2 = formatToolInput (jsOr p.2.rawItem.arguments "\x7b\x7d")) ∧
          (∀ e ∈ entries, ∃ pa,
              lookupStr e.1 (handleInterruptions ints st).1.pendingApprovals = some pa ∧
              pa.groupId = some (mkGroupId st.freshCounter))) := by
  constructor
  · intro i st
    simp [handleInterruptions, handleSingleToolApproval,
      countSingleApprovalEvents, countGroupedApprovalEvents]
  · intro ints st hlen
    have hgt : ints.length > 1 := hlen
    set st0 : AgentState := { st with freshCounter := st.freshCounter + 1 } with hst0
    obtain ⟨hl, hz, hpnd⟩ := registerGroup_spec (mkGroupId st.freshCounter) ints st0
    cases hp : registerGroup (mkGroupId st.freshCounter) ints st0 with
    | mk st2 entries =>
      rw [hp] at hl hz hpnd
      have hout : handleInterruptions ints st =
          (st2, [Output.evt (AgentEvent.grouped_approval_required
            (mkGroupId st.freshCounter) entries)]) := by
        simp only [handleInterruptions, if_pos hgt, handleGroupedToolApprovals, ← hst0, hp]
      rw [hout]
      refine ⟨by simp [countGroupedApprovalEvents, countSingleApprovalEvents], by
        simp [countGroupedApprovalEvents, countSingleApprovalEvents], entries, rfl, hl, hz, hpnd⟩

theorem c3_witness :
    1 < ([sampleInterruption, sampleInterruption2] : List Interruption).length ∧
    countGroupedApprovalEvents
        (handleInterruptions [sampleInterruption, sampleInterruption2] sampleState).2 = 1 ∧
    countSingleApprovalEvents
        (handleInterruptions [sampleInterruption, sampleInterruption2] sampleState).2 = 0 := by
  refine ⟨by decide, ?_, ?_⟩
  · exact (c3_approval_event_arity.2 [sampleInterruption, sampleInterruption2] sampleState
      (by decide)).1
  · exact (c3_approval_event_arity.2 [sampleInterruption, sampleInterruption2] sampleState
      (by decide)).2.1

/-! ## Frame lemmas -/

theorem initAgent_frame (st : AgentState) :
    (initAgent st).history = st.history ∧
    (initAgent st).pendingApprovals = st.pendingApprovals ∧
    (initAgent st).config = st.config := by
  unfold initAgent
  by_cases h : st.isInitializing
  · simp [h]
  · cases hc : createModelResult st.config <;> simp [h, hc]

theorem procSteps_frame (evs : List StreamEvent) (ag : AgentState) (ps : ProcState) :
    (procSteps evs ag ps).1.history = ag.history ∧
    (procSteps evs ag ps).1.pendingApprovals = ag.pendingApprovals ∧
    (procSteps evs ag ps).1.interruptedState = ag.interruptedState ∧
    (procSteps evs ag ps).1.agent = ag.agent ∧
    (procSteps evs ag ps).1.config = ag.config := by
  induction evs generalizing ag ps with
  | nil => simp [procSteps]
  | cons ev rest ih =>
    cases ev with
    | responseStarted => simpa [procSteps, procStep] using ih _ _
    | outputTextDelta d =>
      cases h : ps.currentMessageId with
      | some mid => simpa [procSteps, procStep, h] using ih _ _
      | none => simpa [procSteps, procStep, h] using ih _ _
    | responseDone u =>
      cases h : ps.currentMessageId with
      | some mid => simpa [procSteps, procStep, h] using ih _ _
      | none => simpa [procSteps, procStep, h] using ih _ _
    | modelEvent me => simpa [procSteps, procStep] using ih _ _
    | otherRaw => simpa [procSteps, procStep] using ih _ _
    | runItem name item =>
      by_cases h : name = "tool_output"
      · simpa [procSteps, procStep, h] using ih _ _
      · simpa [procSteps, procStep, h] using ih _ _
    | otherEvent => simpa [procSteps, procStep] using ih _ _

theorem approveToolCall_frame (id : String) (st : AgentState) :
    (approveToolCall id st).1.history = st.history ∧
    (approveToolCall id st).1.agent = st.agent ∧
    (approveToolCall id st).1.config = st.config := by
  unfold approveToolCall
  cases h : lookupStr id st.pendingApprovals with
  | none => simp
  | some p => cases hi : st.interruptedState <;> simp [hi]

theorem rejectToolCall_frame (id : String) (st : AgentState) :
    (rejectToolCall id st).1.history = st.history ∧
    (rejectToolCall id st).1.agent = st.agent ∧
    (rejectToolCall id st).1.config = st.config := by
  unfold rejectToolCall
  cases h : lookupStr id st.pendingApprovals with
  | none => simp
  | some p => cases hi : st.interruptedState <;> simp [hi]

theorem approveGrouped_frame (g : String) (ids : List String) (st : AgentState) :
    (approveGroupedToolCalls g ids st).history = st.history ∧
    (approveGroupedToolCalls g ids st).agent = st.agent ∧
    (approveGroupedToolCalls g ids st).config = st.config := by
  induction ids generalizing st with
  | nil => simp [approveGroupedToolCalls]
  | cons id rest ih =>
    cases h : lookupStr id st.pendingApprovals with
    | none => simpa [approveGroupedToolCalls, h] using ih st
    | some p =>
      by_cases hg : p.groupId = some g
      · cases hi : st.interruptedState <;>
          simpa [approveGroupedToolCalls, h, hg, hi] using ih _
      · simpa [approveGroupedToolCalls, h, hg] using ih st

theorem rejectGrouped_frame (g : String) (ids : List String) (st : AgentState) :
    (rejectGroupedToolCalls g ids st).history = st.history ∧
    (rejectGroupedToolCalls g ids st).agent = st.agent ∧
    (rejectGroupedToolCalls g ids st).config = st.config := by
  induction ids generalizing st with
  | nil => simp [rejectGroupedToolCalls]
  | cons id rest ih =>
    cases h : lookupStr id st.pendingApprovals with
    | none => simpa [rejectGroupedToolCalls, h] using ih st
    | some p =>
      by_cases hg : p.groupId = some g
      · cases hi : st.interruptedState <;>
          simpa [rejectGroupedToolCalls, h, hg, hi] using ih _
      · simpa [rejectGroupedToolCalls, h, hg] using ih st

theorem applyAction_frame (a : ApprovalAction) (st : AgentState) :
    (applyAction a st).1.history = st.history ∧
    (applyAction a st).1.agent = st.agent ∧
    (applyAction a st).1.config = st.config := by
  cases a with
  | approve id => exact approveToolCall_frame id st
  | reject id => exact rejectToolCall_frame id st
  | approveGroup g ids => exact approveGrouped_frame g ids st
  | rejectGroup g ids => exact rejectGrouped_frame g ids st

theorem waitForApprovals_frame (acts : List ApprovalAction) (st : AgentState) :
    (waitForApprovals acts st).1.history = st.history ∧
    (waitForApprovals acts st).1.agent = st.agent ∧
    (waitForApprovals acts st).1.config = st.config := by
  induction acts generalizing st with
  | nil =>
    rw [waitForApprovals.eq_def]
    by_cases h : st.pendingApprovals.isEmpty <;> simp [h]
  | cons a rest ih =>
    rw [waitForApprovals.eq_def]
    by_cases h : st.pendingApprovals.isEmpty
    · simp [h]
    · obtain ⟨f1, f2, f3⟩ := applyAction_frame a st
      obtain ⟨g1, g2, g3⟩ := ih (applyAction a st).1
      cases hap : applyAction a st with
      | mk st1 o1 =>
        rw [hap] at f1 f2 f3 g1 g2 g3
        cases hw : waitForApprovals rest st1 with
        | mk st2 rest2 =>
          rw [hw] at g1 g2 g3
          simp [h, hap, hw]
          exact ⟨g1.trans f1, g2.trans f2, g3.trans f3⟩

theorem registerGroup_frame (g : String) (ints : List Interruption) (st : AgentState) :
    (registerGroup g ints st).1.history = st.history ∧
    (registerGroup g ints st).1.agent = st.agent ∧
    (registerGroup g ints st).1.interruptedState = st.interruptedState ∧
    (registerGroup g ints st).1.config = st.config := by
  induction ints generalizing st with
  | nil => simp [registerGroup]
  | cons i rest ih =>
    cases hp : registerGroup g rest
      { st with
          freshCounter := st.freshCounter + 1
          pendingApprovals :=
            mapSet (mkIntId st.freshCounter)
              { interruption := i, groupId := some g } st.pendingApprovals } with
    | mk st2 entries =>
      have := ih ({ st with
          freshCounter := st.freshCounter + 1
          pendingApprovals :=
            mapSet (mkIntId st.freshCounter)
              { interruption := i, groupId := some g } st.pendingApprovals })
      rw [hp] at this
      simpa [registerGroup, hp] using this

theorem handleInterruptions_frame (ints : List Interruption) (st : AgentState) :
    (handleInterruptions ints st).1.history = st.history ∧
    (handleInterruptions ints st).1.agent = st.agent ∧
    (handleInterruptions ints st).1.config = st.config := by
  unfold handleInterruptions
  by_cases h : ints.length > 1
  · simp only [if_pos h]
    unfold handleGroupedToolApprovals
    have := registerGroup_frame (mkGroupId st.freshCounter) ints
      { st with freshCounter := st.freshCounter + 1 }
    cases hp : registerGroup (mkGroupId st.freshCounter) ints
      { st with freshCounter := st.freshCounter + 1 } with
    | mk st2 entries =>
      rw [hp] at this
      simpa [hp] using ⟨this.1, this.2.1, this.2.2.2⟩
  · simp only [if_neg h]
    cases ints with
    | nil => simp
    | cons i rest => simp [handleSingleToolApproval]

/-! ## Error-event bookkeeping -/

@[simp] theorem errorEventsOf_append (a b : List Output) :
    errorEventsOf (a ++ b) = errorEventsOf a ++ errorEventsOf b := by
  induction a with
  | nil => simp [errorEventsOf]
  | cons o rest ih =>
    cases o with
    | evt e => cases e <;> simp [errorEventsOf, ih]
    | tokenUsageChanged u => simp [errorEventsOf, ih]
    | log s => simp [errorEventsOf, ih]
    | runInvoked a n => simp [errorEventsOf, ih]

theorem procSteps_noerr (evs : List StreamEvent) (ag : AgentState) (ps : ProcState) :
    errorEventsOf (procSteps evs ag ps).2.2 = [] := by
  induction evs generalizing ag ps with
  | nil => simp [procSteps, errorEventsOf]
  | cons ev rest ih =>
    cases ev with
    | responseStarted => simpa [procSteps, procStep, errorEventsOf] using ih _ _
    | outputTextDelta d =>
      cases h : ps.currentMessageId with
      | some mid => simpa [procSteps, procStep, h, errorEventsOf] using ih _ _
      | none => simpa [procSteps, procStep, h, errorEventsOf] using ih _ _
    | responseDone u =>
      cases h : ps.currentMessageId with
      | some mid => simpa [procSteps, procStep, h, errorEventsOf] using ih _ _
      | none => simpa [procSteps, procStep, h, errorEventsOf] using ih _ _
    | modelEvent me =>
      cases me with
      | toolCall a b c =>
        simpa [procSteps, procStep, handleToolCallStart, errorEventsOf] using ih _ _
      | otherModelEvent =>
        simpa [procSteps, procStep, handleToolCallStart, errorEventsOf] using ih _ _
    | otherRaw => simpa [procSteps, procStep, errorEventsOf] using ih _ _
    | runItem name item =>
      by_cases h : name = "tool_output"
      · simpa [procSteps, procStep, h, handleToolOutput, errorEventsOf] using ih _ _
      · simpa [procSteps, procStep, h, errorEventsOf] using ih _ _
    | otherEvent => simpa [procSteps, procStep, errorEventsOf] using ih _ _

theorem applyAction_noerr (a : ApprovalAction) (st : AgentState) :
    errorEventsOf (applyAction a st).2 = [] := by
  cases a with
  | approve id =>
    unfold applyAction approveToolCall
    cases h : lookupStr id st.pendingApprovals with
    | none => simp [h, errorEventsOf]
    | some p => cases hi : st.interruptedState <;> simp [h, hi, errorEventsOf]
  | reject id =>
    unfold applyAction rejectToolCall
    cases h : lookupStr id st.pendingApprovals with
    | none => simp [h, errorEventsOf]
    | some p => cases hi : st.interruptedState <;> simp [h, hi, errorEventsOf]
  | approveGroup g ids => simp [applyAction, errorEventsOf]
  | rejectGroup g ids => simp [applyAction, errorEventsOf]

theorem waitForApprovals_noerr (acts : List ApprovalAction) (st : AgentState) :
    errorEventsOf (waitForApprovals acts st).2.1 = [] := by
  induction acts generalizing st with
  | nil =>
    rw [waitForApprovals.eq_def]
    by_cases h : st.pendingApprovals.isEmpty <;> simp [h, errorEventsOf]
  | cons a rest ih =>
    rw [waitForApprovals.eq_def]
    by_cases h : st.pendingApprovals.isEmpty
    · simp [h, errorEventsOf]
    · have h1 := applyAction_noerr a st
      have h2 := ih (applyAction a st).1
      cases hap : applyAction a st with
      | mk st1 o1 =>
        rw [hap] at h1 h2
        cases hw : waitForApprovals rest st1 with
        | mk st2 rest2 =>
          rw [hw] at h2
          simp [h, hap, hw, h1, h2]

theorem handleInterruptions_noerr (ints : List Interruption) (st : AgentState) :
    errorEventsOf (handleInterruptions ints st).2 = [] := by
  unfold handleInterruptions
  by_cases h : ints.length > 1
  · simp only [if_pos h]
    unfold handleGroupedToolApprovals
    cases hp : registerGroup (mkGroupId st.freshCounter) ints
      { st with freshCounter := st.freshCounter + 1 } with
    | mk st2 entries => simp [hp, errorEventsOf]
  · simp only [if_neg h]
    cases ints with
    | nil => simp [errorEventsOf]
    | cons i rest => simp [handleSingleToolApproval, errorEventsOf]

theorem processRunResult_noerr (evs : List StreamEvent) (ag : AgentState) :
    errorEventsOf (processRunResult evs ag).2 = [] :=
  procSteps_noerr evs ag { fullResponse := "", currentMessageId := none }

theorem processRunResult_history (evs : List StreamEvent) (ag : AgentState) :
    (processRunResult evs ag).1.history = ag.history :=
  (procSteps_frame evs ag { fullResponse := "", currentMessageId := none }).1

theorem genIter_err (script : List (List ApprovalAction × RunOutcome))
    (r : RunResult) (st st' : AgentState) (out : List Output) (e : String)
    (h : genIter r script st = (st', out, GenOutcome.errored e)) :
    errorEventsOf out = [] ∧ st'.history = st.history := by
  induction script generalizing r st st' out with
  | nil =>
    rw [genIter.eq_def] at h
    dsimp only at h
    cases hint : r.interruptions with
    | nil => rw [hint] at h; simp at h
    | cons i irest => rw [hint] at h; simp at h
  | cons p srest ih =>
    obtain ⟨acts, next⟩ := p
    rw [genIter.eq_def] at h
    dsimp only at h
    cases hint : r.interruptions with
    | nil => rw [hint] at h; simp at h
    | cons i irest =>
      rw [hint] at h
      dsimp only at h
      set st0 : AgentState := { st with interruptedState := some r.state } with hst0
      set hi := handleInterruptions (i :: irest) st0 with hhi
      set w := waitForApprovals acts hi.1 with hwd
      have hno1 : errorEventsOf hi.2 = [] := by
        rw [hhi]; exact handleInterruptions_noerr _ _
      have hno2 : errorEventsOf w.2.1 = [] := by
        rw [hwd]; exact waitForApprovals_noerr _ _
      have hhist1 : hi.1.history = st.history := by
        rw [hhi]
        have := (handleInterruptions_frame (i :: irest) st0).1
        rw [this, hst0]
      have hhist2 : w.1.history = hi.1.history := by
        rw [hwd]; exact (waitForApprovals_frame _ _).1
      cases hres : w.2.2 with
      | false =>
        rw [hres] at h
        simp at h
      | true =>
        rw [hres] at h
        simp only [if_true] at h
        cases next with
        | err e2 =>
          simp only [Prod.mk.injEq] at h
          obtain ⟨h1, h2, h3⟩ := h
          cases h3
          subst h1 h2
          refine ⟨?_, by rw [hhist2, hhist1]⟩
          simp [hno1, hno2, errorEventsOf]
        | ok r2 =>
          set pr := processRunResult r2.events w.1 with hpr
          set gi := genIter r2 srest pr.1 with hgi
          simp only [Prod.mk.injEq] at h
          obtain ⟨h1, h2, h3⟩ := h
          subst h1 h2
          have hrec : genIter r2 srest pr.1 = (gi.1, gi.2.1, GenOutcome.errored e) := by
            rw [← h3, ← hgi]
          obtain ⟨ih1, ih2⟩ := ih r2 pr.1 gi.1 gi.2.1 hrec
          have hno3 : errorEventsOf pr.2 = [] := by
            rw [hpr]; exact processRunResult_noerr _ _
          have hhist3 : pr.1.history = w.1.history := by
            rw [hpr]; exact processRunResult_history _ _
          refine ⟨?_, by rw [ih2, hhist3, hhist2, hhist1]⟩
          simp [hno1, hno2, hno3, ih1, errorEventsOf]

/-- **C6**: when the streamed run throws (network/model failure),
`generateResponse` catches it and emits exactly one `error` event carrying
the underlying cause, and no partial result is committed: the history
after the failed call is the history before the call plus the appended
user message (no partial assistant message). -/
theorem c6_stream_error_containment (message : String) (first : RunOutcome)
    (script : List (List ApprovalAction × RunOutcome)) (st st' : AgentState)
    (out : List Output) (e : String)
    (hagent : st.agent = true)
    (hrun : generateResponse message first script st = (st', out, GenOutcome.errored e)) :
    errorEventsOf out = [e] ∧ st'.history = st.history ++ [InputItem.user message] := by
  unfold generateResponse at hrun
  rw [hagent] at hrun
  simp only [if_true] at hrun
  rw [hagent] at hrun
  simp only [if_true] at hrun
  cases first with
  | err e2 =>
    dsimp only at hrun
    simp only [Prod.mk.injEq] at hrun
    obtain ⟨h1, h2, h3⟩ := hrun
    cases h3
    subst h1 h2
    exact ⟨by simp [errorEventsOf], rfl⟩
  | ok r =>
    dsimp only at hrun
    set stB : AgentState :=
      { st with history := st.history ++ [InputItem.user message], agent := true }
      with hstB
    set pr := processRunResult r.events stB with hpr
    set gi := genIter r script pr.1 with hgi
    have hno3 : errorEventsOf pr.2 = [] := by
      rw [hpr]; exact processRunResult_noerr _ _
    have hhist3 : pr.1.history = stB.history := by
      rw [hpr]; exact processRunResult_history _ _
    cases hoc : gi.2.2 with
    | completed => rw [hoc] at hrun; simp at hrun
    | stuckAwaitingApproval => rw [hoc] at hrun; simp at hrun
    | scriptEnded => rw [hoc] at hrun; simp at hrun
    | errored e3 =>
      rw [hoc] at hrun
      simp only [Prod.mk.injEq] at hrun
      obtain ⟨h1, h2, h3⟩ := hrun
      cases h3
      subst h1 h2
      have hrec : genIter r script pr.1 = (gi.1, gi.2.1, GenOutcome.errored e) := by
        rw [← hoc, ← hgi]
      obtain ⟨ih1, ih2⟩ := genIter_err script r pr.1 gi.1 gi.2.1 e hrec
      constructor
      · simp [errorEventsOf, hno3, ih1]
      · rw [ih2, hhist3]

/-- A trivially settling run result: no streamed items, no
interruptions. -/
def sampleRun : RunResult :=
  { events := []
    interruptions := []
    state := { sid := 0, approvedItems := [], rejectedItems := [] }
    finalHistory := [InputItem.user "hi", InputItem.assistant "hello"] }

theorem c6_witness :
    sampleState.agent = true ∧
    errorEventsOf (generateResponse "hi" (RunOutcome.err "boom") [] sampleState).2.1
        = ["boom"] ∧
    (generateResponse "hi" (RunOutcome.err "boom") [] sampleState).1.history
        = sampleState.history ++ [InputItem.user "hi"] := by
  refine ⟨rfl, ?_⟩
  have := c6_stream_error_containment "hi" (RunOutcome.err "boom") [] sampleState
    (generateResponse "hi" (RunOutcome.err "boom") [] sampleState).1
    (generateResponse "hi" (RunOutcome.err "boom") [] sampleState).2.1
    "boom" rfl rfl
  exact this

/-! ## Configuration preconditions (generateResponse entry) -/

/-- A configuration that `hasValidConfig` rejects (no model selected) but
whose provider factory succeeds: the generic provider needs no key and
defaults the model. -/
def cfgNoModel : Config :=
  { activeProvider := "p1"
    providers := [("p1", { provider := "generic", model := "", apiKey := "" })]
    registry := [("generic", { apiKeyRequirement := "optional" })]
    hasProviderRegistry := true
    toolsEnabled := true }

/-- Fresh (uninitialized) agent state over `cfgNoModel`. -/
def stNoModel : AgentState := { sampleState with config := cfgNoModel, agent := false }

/-- **C5 counterexample**: the claim says an unresolvable configuration
(in particular a missing model) makes `generateResponse` fail with a
configuration error before any network interaction.  But `generateResponse`
never consults `hasValidConfig`: with a provider configured and no model
selected, `hasValidConfig` is `false`, yet the call emits no error and
invokes `runner.run` (the network interaction). -/
theorem c5_counterexample :
    hasValidConfig cfgNoModel = false ∧
    Output.runInvoked (RunArg.fromHistory [InputItem.user "hi"]) 0
        ∈ (generateResponse "hi" (RunOutcome.ok sampleRun) [] stNoModel).2.1 ∧
    errorEventsOf (generateResponse "hi" (RunOutcome.ok sampleRun) [] stNoModel).2.1
        = [] := by
  refine ⟨by decide, by decide, by decide⟩

/-- **C5 (amended)**: if the active provider is missing, or its credential
is empty while the provider requires one (the SAP provider, or any
registered provider with `apiKeyRequirement = "required"`), then a fresh
`generateResponse` fails before any network interaction — the whole trace
is one `error` event, no `runner.run` is ever invoked, and the history is
untouched.  (A missing model alone does *not* trigger this failure path —
see the counterexample — and the surfaced error is the generic
`Failed to initialize agent` event rather than a dedicated
`ConfigurationError` type.) -/
theorem c5_config_failure_before_network (message : String) (first : RunOutcome)
    (script : List (List ApprovalAction × RunOutcome)) (st : AgentState)
    (hagent : st.agent = false)
    (hbad : lookupStr st.config.activeProvider st.config.providers = none ∨
      ∃ pc, lookupStr st.config.activeProvider st.config.providers = some pc ∧
        pc.apiKey = "" ∧
        (pc.provider = "sap" ∨
          ∃ info, lookupStr pc.provider st.config.registry = some info ∧
            info.apiKeyRequirement = "required")) :
    (generateResponse message first script st).2.1
        = [Output.evt (AgentEvent.error "Failed to initialize agent")] ∧
    (generateResponse message first script st).2.2
        = GenOutcome.errored "Failed to initialize agent" ∧
    (generateResponse message first script st).1.history = st.history ∧
    ∀ arg n, Output.runInvoked arg n ∉ (generateResponse message first script st).2.1 := by
  have hcm : ∃ msg, createModelResult st.config = Except.error msg := by
    unfold createModelResult
    by_cases hap : st.config.activeProvider = ""
    · exact ⟨_, by rw [if_pos hap]⟩
    · rw [if_neg hap]
      rcases hbad with h1 | ⟨pc, hpc, hkey, hrest⟩
      · exact ⟨_, by rw [h1]⟩
      · rw [hpc]
        dsimp only
        by_cases hsap : pc.provider = "sap"
        · exact ⟨_, by rw [if_pos hsap, if_pos hkey]⟩
        · rw [if_neg hsap]
          rcases hrest with h2 | ⟨info, hinfo, hreq⟩
          · exact absurd h2 hsap
          · exact ⟨"API key required", by rw [hinfo]; simp [hreq, hkey]⟩
  obtain ⟨msg, hcm⟩ := hcm
  have hA : (initAgent st).agent = false := by
    unfold initAgent
    by_cases hinit : st.isInitializing
    · rw [if_pos hinit]; exact hagent
    · rw [if_neg hinit, hcm]
  have hAh : (initAgent st).history = st.history := (initAgent_frame st).1
  have heq : generateResponse message first script st =
      (initAgent st, [Output.evt (AgentEvent.error "Failed to initialize agent")],
       GenOutcome.errored "Failed to initialize agent") := by
    unfold generateResponse
    rw [hagent]
    simp only [Bool.false_eq_true, if_false]
    rw [hA]
    simp only [Bool.false_eq_true, if_false]
  rw [heq]
  exact ⟨rfl, rfl, hAh, by intro arg n; simp⟩

/-- Configuration with a required credential missing. -/
def cfgNoKey : Config :=
  { activeProvider := "p1"
    providers := [("p1", { provider := "anthropic", model := "claude", apiKey := "" })]
    registry := [("anthropic", { apiKeyRequirement := "required" })]
    hasProviderRegistry := true
    toolsEnabled := true }

/-- Fresh agent state over `cfgNoKey`. -/
def stNoKey : AgentState := { sampleState with config := cfgNoKey, agent := false }

theorem c5_witness :
    stNoKey.agent = false ∧
    (generateResponse "hi" (RunOutcome.ok sampleRun) [] stNoKey).2.1
        = [Output.evt (AgentEvent.error "Failed to initialize agent")] := by
  refine ⟨rfl, ?_⟩
  exact (c5_config_failure_before_network "hi" (RunOutcome.ok sampleRun) [] stNoKey rfl
    (Or.inr ⟨_, rfl, rfl, Or.inr ⟨_, rfl, rfl⟩⟩)).1

/-! ## Single-flight (generateResponse has no active-run guard) -/

/-- An agent state with a run suspended mid-turn: one approval pending and
a captured interrupted run state. -/
def busyState : AgentState :=
  { sampleState with
      pendingApprovals := [("int-0", { interruption := sampleInterruption })]
      interruptedState := some { sid := 7, approvedItems := [], rejectedItems := [] } }

/-- **C8 counterexample**: the claim says a second `generateResponse` must
not start while one is active (rejected or queued by an active-run guard).
But from a state in which a run is suspended mid-turn (non-empty pending
set, captured interrupted state), a second call proceeds unconditionally:
it appends its user message and invokes a fresh `runner.run` (observable
as a run invocation with one approval still pending). -/
theorem c8_counterexample :
    busyState.pendingApprovals ≠ [] ∧
    busyState.interruptedState ≠ none ∧
    Output.runInvoked (RunArg.fromHistory [InputItem.user "second"]) 1
        ∈ (generateResponse "second" (RunOutcome.ok sampleRun) [] busyState).2.1 := by
  refine ⟨by decide, by decide, by decide⟩

/-- **C8 (amended)**: only `initializeAgent` is guarded (a re-entrant call
during initialization returns immediately leaving the state unchanged);
`generateResponse` itself has no active-run guard: whenever an agent is
present the call proceeds — regardless of any pending approvals or
interrupted state of a previous run — appending its user message and
invoking `runner.run`. -/
theorem c8_no_active_run_guard :
    (∀ st : AgentState, st.isInitializing = true → initAgent st = st) ∧
    (∀ (message : String) (first : RunOutcome)
        (script : List (List ApprovalAction × RunOutcome)) (st : AgentState),
        st.agent = true →
        Output.runInvoked (RunArg.fromHistory (st.history ++ [InputItem.user message]))
            st.pendingApprovals.length
          ∈ (generateResponse message first script st).2.1) := by
  constructor
  · intro st h
    unfold initAgent
    rw [if_pos h]
  · intro message first script st hagent
    unfold generateResponse
    rw [hagent]
    simp only [if_true]
    rw [hagent]
    simp only [if_true]
    cases first with
    | err e => dsimp only; exact List.mem_cons_self _ _
    | ok r =>
      dsimp only
      set stB : AgentState :=
        { st with history := st.history ++ [InputItem.user message], agent := true }
        with hstB
      cases hoc : (genIter r script (processRunResult r.events stB).1).2.2 with
      | completed => exact List.mem_cons_self _ _
      | errored e => exact List.mem_cons_self _ _
      | stuckAwaitingApproval => exact List.mem_cons_self _ _
      | scriptEnded => exact List.mem_cons_self _ _

/-- A state whose initialization guard is set. -/
def initializingState : AgentState := { sampleState with isInitializing := true }

theorem c8_witness :
    initializingState.isInitializing = true ∧
    initAgent initializingState = initializingState ∧
    busyState.agent = true ∧
    Output.runInvoked
        (RunArg.fromHistory (busyState.history ++ [InputItem.user "second"]))
        busyState.pendingApprovals.length
      ∈ (generateResponse "second" (RunOutcome.ok sampleRun) [] busyState).2.1 := by
  exact ⟨rfl, c8_no_active_run_guard.1 initializingState rfl, rfl,
    c8_no_active_run_guard.2 "second" (RunOutcome.ok sampleRun) [] busyState rfl⟩

/-! ## Resume gating (the approval wait loop) -/

/-- Whether an output is a `runner.run` invocation observation. -/
def isInvoke : Output → Bool
  | Output.runInvoked _ _ => true
  | _ => false

theorem mem_keys_mapDelete {α : Type} (k id : String) (l : List (String × α))
    (hmem : id ∈ l.map Prod.fst) (hne : id ≠ k) :
    id ∈ (mapDelete k l).map Prod.fst := by
  induction l with
  | nil => simp at hmem
  | cons p rest ih =>
    by_cases hp : p.1 = k
    · simp only [mapDelete, if_pos hp]
      simp only [List.map_cons, List.mem_cons] at hmem
      rcases hmem with h1 | h2
      · exact absurd (h1.trans hp) hne
      · exact h2
    · simp only [mapDelete, if_neg hp, List.map_cons, List.mem_cons]
      simp only [List.map_cons, List.mem_cons] at hmem
      rcases hmem with h1 | h2
      · exact Or.inl h1
      · exact Or.inr (ih h2)

/-- A single `approve`/`reject` call that does not target `id` leaves `id`
pending. -/
theorem pending_after_single (a : ApprovalAction) (id : String) (st : AgentState)
    (hsingle : a.isSingleResolve = true)
    (hmem : id ∈ st.pendingApprovals.map Prod.fst)
    (hnt : a.targets id = false) :
    id ∈ (applyAction a st).1.pendingApprovals.map Prod.fst := by
  cases a with
  | approve j =>
    have hne : id ≠ j := by
      intro h; subst h
      simp [ApprovalAction.targets] at hnt
    unfold applyAction approveToolCall
    cases h : lookupStr j st.pendingApprovals with
    | none => simpa [h] using hmem
    | some p =>
      cases hi : st.interruptedState <;>
        simpa [h, hi] using mem_keys_mapDelete j id st.pendingApprovals hmem hne
  | reject j =>
    have hne : id ≠ j := by
      intro h; subst h
      simp [ApprovalAction.targets] at hnt
    unfold applyAction rejectToolCall
    cases h : lookupStr j st.pendingApprovals with
    | none => simpa [h] using hmem
    | some p =>
      cases hi : st.interruptedState <;>
        simpa [h, hi] using mem_keys_mapDelete j id st.pendingApprovals hmem hne
  | approveGroup g ids => simp [ApprovalAction.isSingleResolve] at hsingle
  | rejectGroup g ids => simp [ApprovalAction.isSingleResolve] at hsingle

/-- Every output of an external resolution call is a diagnostic log. -/
theorem applyAction_outputs_log (a : ApprovalAction) (st : AgentState) :
    ∀ o ∈ (applyAction a st).2, ∃ s, o = Output.log s := by
  cases a with
  | approve j =>
    unfold applyAction approveToolCall
    cases h : lookupStr j st.pendingApprovals with
    | none => intro o ho; simp [h] at ho; exact ⟨_, ho⟩
    | some p => cases hi : st.interruptedState <;> simp [h, hi]
  | reject j =>
    unfold applyAction rejectToolCall
    cases h : lookupStr j st.pendingApprovals with
    | none => intro o ho; simp [h] at ho; exact ⟨_, ho⟩
    | some p => cases hi : st.interruptedState <;> simp [h, hi]
  | approveGroup g ids => simp [applyAction]
  | rejectGroup g ids => simp [applyAction]

theorem waitForApprovals_outputs_log (acts : List ApprovalAction) (st : AgentState) :
    ∀ o ∈ (waitForApprovals acts st).2.1, ∃ s, o = Output.log s := by
  induction acts generalizing st with
  | nil =>
    rw [waitForApprovals.eq_def]
    by_cases h : st.pendingApprovals.isEmpty <;> simp [h]
  | cons a rest ih =>
    rw [waitForApprovals.eq_def]
    by_cases h : st.pendingApprovals.isEmpty
    · simp [h]
    · simp only [h, Bool.false_eq_true, if_false]
      intro o ho
      simp only [List.mem_append] at ho
      rcases ho with h1 | h2
      · exact applyAction_outputs_log a st o h1
      · exact ih (applyAction a st).1 o h2

/-- The wait loop reports `resolved = true` only with an empty pending
set. -/
theorem waitForApprovals_true_empty (acts : List ApprovalAction) (st st2 : AgentState)
    (outs : List Output)
    (h : waitForApprovals acts st = (st2, outs, true)) :
    st2.pendingApprovals = [] := by
  induction acts generalizing st st2 outs with
  | nil =>
    rw [waitForApprovals.eq_def] at h
    dsimp only at h
    by_cases he : st.pendingApprovals.isEmpty
    · rw [if_pos he] at h
      simp only [Prod.mk.injEq] at h
      rw [← h.1]
      exact List.isEmpty_iff.mp he
    · rw [if_neg he] at h
      simp at h
  | cons a rest ih =>
    rw [waitForApprovals.eq_def] at h
    dsimp only at h
    by_cases he : st.pendingApprovals.isEmpty
    · rw [if_pos he] at h
      simp only [Prod.mk.injEq] at h
      rw [← h.1]
      exact List.isEmpty_iff.mp he
    · rw [if_neg he] at h
      cases hap : applyAction a st with
      | mk st1 o1 =>
        rw [hap] at h
        cases hw : waitForApprovals rest st1 with
        | mk stw rest2 =>
          obtain ⟨o2, resolved⟩ := rest2
          rw [hw] at h
          simp only [Prod.mk.injEq] at h
          obtain ⟨h1, h2, h3⟩ := h
          rw [← h1]
          rw [h3] at hw
          exact ih st1 stw o2 hw

theorem waitForApprovals_resolves_all (acts : List ApprovalAction) :
    ∀ (st st2 : AgentState) (outs : List Output),
    (∀ a ∈ acts, a.isSingleResolve = true) →
    waitForApprovals acts st = (st2, outs, true) →
    ∀ id ∈ st.pendingApprovals.map Prod.fst, ∃ a ∈ acts, a.targets id = true := by
  induction acts with
  | nil =>
    intro st st2 outs hsingle h id hid
    rw [waitForApprovals.eq_def] at h
    dsimp only at h
    by_cases he : st.pendingApprovals.isEmpty
    · rw [List.isEmpty_iff.mp he] at hid
      simp at hid
    · rw [if_neg he] at h
      simp at h
  | cons a rest ih =>
    intro st st2 outs hsingle h id hid
    rw [waitForApprovals.eq_def] at h
    dsimp only at h
    by_cases he : st.pendingApprovals.isEmpty
    · rw [List.isEmpty_iff.mp he] at hid
      simp at hid
    · rw [if_neg he] at h
      cases hap : applyAction a st with
      | mk st1 o1 =>
        rw [hap] at h
        cases hw : waitForApprovals rest st1 with
        | mk stw rest2 =>
          obtain ⟨o2, resolved⟩ := rest2
          rw [hw] at h
          simp only [Prod.mk.injEq] at h
          obtain ⟨h1, h2, h3⟩ := h
          rw [h3] at hw
          by_cases ht : a.targets id = true
          · exact ⟨a, List.mem_cons_self a rest, ht⟩
          · have hmem1 : id ∈ st1.pendingApprovals.map Prod.fst := by
              have := pending_after_single a id st
                (hsingle a (List.mem_cons_self a rest)) hid
                (by simpa using ht)
              rw [hap] at this
              exact this
            obtain ⟨a2, ha2, ht2⟩ :=
              ih st1 stw o2 (fun x hx => hsingle x (List.mem_cons_of_mem a hx)) hw id hmem1
            exact ⟨a2, List.mem_cons_of_mem a ha2, ht2⟩

theorem procSteps_noinvoke_all (evs : List StreamEvent) (ag : AgentState) (ps : ProcState) :
    ((procSteps evs ag ps).2.2.all fun o => !isInvoke o) = true := by
  induction evs generalizing ag ps with
  | nil => simp [procSteps]
  | cons ev rest ih =>
    cases ev with
    | responseStarted =>
      simpa [procSteps, procStep, isInvoke, List.all_append] using ih _ _
    | outputTextDelta d =>
      cases h : ps.currentMessageId with
      | some mid => simpa [procSteps, procStep, h, isInvoke, List.all_append] using ih _ _
      | none => simpa [procSteps, procStep, h, isInvoke, List.all_append] using ih _ _
    | responseDone u =>
      cases h : ps.currentMessageId with
      | some mid => simpa [procSteps, procStep, h, isInvoke, List.all_append] using ih _ _
      | none => simpa [procSteps, procStep, h, isInvoke, List.all_append] using ih _ _
    | modelEvent me =>
      cases me with
      | toolCall a b c =>
        simpa [procSteps, procStep, handleToolCallStart, isInvoke, List.all_append] using ih _ _
      | otherModelEvent =>
        simpa [procSteps, procStep, handleToolCallStart, isInvoke, List.all_append] using ih _ _
    | otherRaw => simpa [procSteps, procStep, isInvoke, List.all_append] using ih _ _
    | runItem name item =>
      by_cases h : name = "tool_output"
      · simpa [procSteps, procStep, h, handleToolOutput, isInvoke, List.all_append] using ih _ _
      · simpa [procSteps, procStep, h, isInvoke, List.all_append] using ih _ _
    | otherEvent => simpa [procSteps, procStep, isInvoke, List.all_append] using ih _ _

theorem procSteps_noinvoke (evs : List StreamEvent) (ag : AgentState) (ps : ProcState) :
    ∀ o ∈ (procSteps evs ag ps).2.2, isInvoke o = false := by
  intro o ho
  have := procSteps_noinvoke_all evs ag ps
  rw [List.all_eq_true] at this
  simpa using this o ho

theorem handleInterruptions_noinvoke (ints : List Interruption) (st : AgentState) :
    ∀ o ∈ (handleInterruptions ints st).2, isInvoke o = false := by
  unfold handleInterruptions
  by_cases h : ints.length > 1
  · simp only [if_pos h]
    unfold handleGroupedToolApprovals
    cases hp : registerGroup (mkGroupId st.freshCounter) ints
      { st with freshCounter := st.freshCounter + 1 } with
    | mk st2 entries =>
      intro o ho
      simp only [hp, List.mem_singleton] at ho
      rw [ho]; rfl
  · simp only [if_neg h]
    cases ints with
    | nil => simp
    | cons i rest =>
      intro o ho
      simp only [handleSingleToolApproval, List.mem_singleton] at ho
      rw [ho]; rfl

/-- Every resume performed by the interruption loop happens with an empty
pending set: any `runner.run` invocation from a captured state observed in
the loop's trace carries pending-count zero. -/
theorem genIter_resume_gated (script : List (List ApprovalAction × RunOutcome))
    (r : RunResult) (st : AgentState) (rs : RunState) (n : Nat)
    (hmem : Output.runInvoked (RunArg.fromState rs) n ∈ (genIter r script st).2.1) :
    n = 0 := by
  induction script generalizing r st with
  | nil =>
    rw [genIter.eq_def] at hmem
    dsimp only at hmem
    cases hint : r.interruptions with
    | nil => rw [hint] at hmem; simp at hmem
    | cons i irest =>
      rw [hint] at hmem
      dsimp only at hmem
      have := handleInterruptions_noinvoke (i :: irest)
        { st with interruptedState := some r.state } _ hmem
      simp [isInvoke] at this
  | cons p srest ih =>
    obtain ⟨acts, next⟩ := p
    rw [genIter.eq_def] at hmem
    dsimp only at hmem
    cases hint : r.interruptions with
    | nil => rw [hint] at hmem; simp at hmem
    | cons i irest =>
      rw [hint] at hmem
      dsimp only at hmem
      set st0 : AgentState := { st with interruptedState := some r.state } with hst0
      set hi := handleInterruptions (i :: irest) st0 with hhi
      set w := waitForApprovals acts hi.1 with hwd
      have hnohi : ∀ o ∈ hi.2, isInvoke o = false := by
        rw [hhi]; exact handleInterruptions_noinvoke _ _
      have hnow : ∀ o ∈ w.2.1, isInvoke o = false := by
        rw [hwd]
        intro o ho
        obtain ⟨s, hs⟩ := waitForApprovals_outputs_log acts hi.1 o ho
        rw [hs]; rfl
      cases hres : w.2.2 with
      | false =>
        rw [hres] at hmem
        simp only [Bool.false_eq_true, if_false, List.mem_append] at hmem
        rcases hmem with h1 | h2
        · have := hnohi _ h1; simp [isInvoke] at this
        · have := hnow _ h2; simp [isInvoke] at this
      | true =>
        rw [hres] at hmem
        simp only [if_true] at hmem
        have hwait : waitForApprovals acts hi.1 = (w.1, w.2.1, true) := by
          rw [← hres, hwd]
        have hempty : w.1.pendingApprovals = [] :=
          waitForApprovals_true_empty acts hi.1 w.1 w.2.1 hwait
        cases next with
        | err e =>
          simp only [List.mem_append, List.mem_singleton] at hmem
          rcases hmem with (h1 | h2) | h3
          · have := hnohi _ h1; simp [isInvoke] at this
          · have := hnow _ h2; simp [isInvoke] at this
          · simp only [Output.runInvoked.injEq] at h3
            rw [h3.2, hempty]
            rfl
        | ok r2 =>
          simp only [List.mem_append, List.mem_singleton] at hmem
          rcases hmem with (((h1 | h2) | h3) | h4) | h5
          · have := hnohi _ h1; simp [isInvoke] at this
          · have := hnow _ h2; simp [isInvoke] at this
          · simp only [Output.runInvoked.injEq] at h3
            rw [h3.2, hempty]
            rfl
          · have := procSteps_noinvoke r2.events w.1
              { fullResponse := "", currentMessageId := none } _ h4
            simp [isInvoke] at this
          · exact ih r2 (processRunResult r2.events w.1).1 h5

/-- **C1**: after a run settles with interruptions, the loop waits on the
pending-approval set: (i) the wait concludes only when the pending set is
empty, every id pending at the start of the wait (in particular every id
registered for the current batch) has been targeted by one of the external
`approve`/`reject` calls, and the wait itself emits no run events (no
`message_start`/`message_chunk`/`message_complete`/`tool_call_*`); and
(ii) in any `generateResponse` trace, every re-invocation of the run from
a captured interrupted state happens with pending-count zero — the resumed
run's events can only appear after that point. -/
theorem c1_no_resume_until_batch_resolved :
    (∀ (acts : List ApprovalAction) (st st2 : AgentState) (outs : List Output),
        (∀ a ∈ acts, a.isSingleResolve = true) →
        waitForApprovals acts st = (st2, outs, true) →
        st2.pendingApprovals = [] ∧
        (∀ id ∈ st.pendingApprovals.map Prod.fst, ∃ a ∈ acts, a.targets id = true) ∧
        (∀ o ∈ outs, isRunEvent o = false)) ∧
    (∀ (message : String) (first : RunOutcome)
        (script : List (List ApprovalAction × RunOutcome)) (st : AgentState)
        (rs : RunState) (n : Nat),
        Output.runInvoked (RunArg.fromState rs) n
            ∈ (generateResponse message first script st).2.1 →
        n = 0) := by
  constructor
  · intro acts st st2 outs hsingle h
    refine ⟨waitForApprovals_true_empty acts st st2 outs h,
      waitForApprovals_resolves_all acts st st2 outs hsingle h, ?_⟩
    intro o ho
    have ho2 : o ∈ (waitForApprovals acts st).2.1 := by rw [h]; exact ho
    obtain ⟨s, hs⟩ := waitForApprovals_outputs_log acts st o ho2
    rw [hs]; rfl
  · intro message first script st rs n hmem
    unfold generateResponse at hmem
    by_cases hstA : (if st.agent = true then st else initAgent st).agent = true
    · rw [if_pos hstA] at hmem
      cases first with
      | err e =>
        dsimp only at hmem
        simp at hmem
      | ok r =>
        dsimp only at hmem
        set stA : AgentState := if st.agent = true then st else initAgent st with hstA2
        set stB : AgentState := { stA with history := stA.history ++ [InputItem.user message] }
          with hstB
        set pr := processRunResult r.events stB with hprd
        set gi := genIter r script pr.1 with hgid
        have hnopr : ∀ o ∈ pr.2, isInvoke o = false := by
          rw [hprd]
          exact procSteps_noinvoke r.events stB { fullResponse := "", currentMessageId := none }
        have hgig : ∀ m, Output.runInvoked (RunArg.fromState rs) m ∈ gi.2.1 → m = 0 := by
          intro m hm
          rw [hgid] at hm
          exact genIter_resume_gated script r pr.1 rs m hm
        cases hoc : gi.2.2 with
        | errored e =>
          rw [hoc] at hmem
          dsimp only at hmem
          simp only [List.mem_cons, List.mem_append, List.mem_singleton] at hmem
          rcases hmem with h1 | ((h2 | h3) | h4)
          · simp at h1
          · have := hnopr _ h2; simp [isInvoke] at this
          · exact hgig n h3
          · simp at h4
        | completed =>
          rw [hoc] at hmem
          dsimp only at hmem
          simp only [List.mem_cons, List.mem_append] at hmem
          rcases hmem with h1 | h2 | h3
          · simp at h1
          · have := hnopr _ h2; simp [isInvoke] at this
          · exact hgig n h3
        | stuckAwaitingApproval =>
          rw [hoc] at hmem
          dsimp only at hmem
          simp only [List.mem_cons, List.mem_append] at hmem
          rcases hmem with h1 | h2 | h3
          · simp at h1
          · have := hnopr _ h2; simp [isInvoke] at this
          · exact hgig n h3
        | scriptEnded =>
          rw [hoc] at hmem
          dsimp only at hmem
          simp only [List.mem_cons, List.mem_append] at hmem
          rcases hmem with h1 | h2 | h3
          · simp at h1
          · have := hnopr _ h2; simp [isInvoke] at this
          · exact hgig n h3
    · rw [if_neg hstA] at hmem
      simp at hmem

theorem c1_witness :
    (∀ a ∈ [ApprovalAction.approve "int-0"], a.isSingleResolve = true) ∧
    (waitForApprovals [ApprovalAction.approve "int-0"] busyState).1.pendingApprovals = [] ∧
    (∃ a ∈ [ApprovalAction.approve "int-0"], a.targets "int-0" = true) := by
  have h := c1_no_resume_until_batch_resolved.1 [ApprovalAction.approve "int-0"] busyState
    (waitForApprovals [ApprovalAction.approve "int-0"] busyState).1
    (waitForApprovals [ApprovalAction.approve "int-0"] busyState).2.1
    (by decide) rfl
  exact ⟨by decide, h.1, h.2.1 "int-0" (by decide)⟩

/-! ## Message-stream discipline

A small trace validator: it tracks the currently open assistant message
(with its accumulated content) and all message ids ever started, and
accepts a trace exactly when chunk contents accumulate correctly, chunk
and completion events reference the open message, and ids are never
reused.  `_processRunResult` traces are shown to pass it, and the
declarative chunk/ordering properties are extracted from acceptance. -/

structure Chk where
  cur : Option (String × String)
  used : List String

/-- One validation step. -/
def chkStep (s : Chk) : Output → Option Chk
  | Output.evt (AgentEvent.message_start m) =>
      if m ∈ s.used then none
      else some { cur := some (m, ""), used := m :: s.used }
  | Output.evt (AgentEvent.message_chunk m c f) =>
      match s.cur with
      | some (m', acc) =>
          if m = m' ∧ f = acc ++ c then
            some { cur := some (m', acc ++ c), used := s.used }
          else none
      | none => none
  | Output.evt (AgentEvent.message_complete m cont) =>
      match s.cur with
      | some (m', acc) =>
          if m = m' ∧ cont = acc then some { cur := none, used := s.used }
          else none
      | none => none
  | _ => some s

/-- Validate a whole trace. -/
def chkRun : Chk → List Output → Option Chk
  | s, [] => some s
  | s, o :: rest =>
    match chkStep s o with
    | some s2 => chkRun s2 rest
    | none => none

theorem chkRun_append (l1 l2 : List Output) (s : Chk) :
    chkRun s (l1 ++ l2) =
      match chkRun s l1 with
      | some s1 => chkRun s1 l2
      | none => none := by
  induction l1 generalizing s with
  | nil => simp [chkRun]
  | cons o rest ih =>
    simp only [List.cons_append, chkRun]
    cases hs : chkStep s o with
    | some s2 => exact ih s2
    | none => rfl

theorem chkRun_split (o1 o2 : List Output) (x : Output) (s s2 : Chk)
    (h : chkRun s (o1 ++ x :: o2) = some s2) :
    ∃ s1 s15, chkRun s o1 = some s1 ∧ chkStep s1 x = some s15 ∧
      chkRun s15 o2 = some s2 := by
  rw [chkRun_append] at h
  cases h1 : chkRun s o1 with
  | none => rw [h1] at h; simp at h
  | some s1 =>
    rw [h1] at h
    simp only [chkRun] at h
    cases h2 : chkStep s1 x with
    | none => rw [h2] at h; simp at h
    | some s15 =>
      rw [h2] at h
      exact ⟨s1, s15, rfl, h2, h⟩

theorem chkStep_chunk_inv (s s' : Chk) (m c f : String)
    (h : chkStep s (Output.evt (AgentEvent.message_chunk m c f)) = some s') :
    ∃ acc, s.cur = some (m, acc) ∧ f = acc ++ c ∧
      s' = { cur := some (m, acc ++ c), used := s.used } := by
  unfold chkStep at h
  cases hc : s.cur with
  | none => rw [hc] at h; simp at h
  | some p =>
    obtain ⟨m', acc⟩ := p
    rw [hc] at h
    dsimp only at h
    by_cases hcond : m = m' ∧ f = acc ++ c
    · rw [if_pos hcond] at h
      obtain ⟨h1, h2⟩ := hcond
      subst h1
      exact ⟨acc, rfl, h2, by simp at h; exact h.symm⟩
    · rw [if_neg hcond] at h
      simp at h

theorem chkStep_complete_inv (s s' : Chk) (m cont : String)
    (h : chkStep s (Output.evt (AgentEvent.message_complete m cont)) = some s') :
    ∃ acc, s.cur = some (m, acc) ∧ cont = acc ∧
      s' = { cur := none, used := s.used } := by
  unfold chkStep at h
  cases hc : s.cur with
  | none => rw [hc] at h; simp at h
  | some p =>
    obtain ⟨m', acc⟩ := p
    rw [hc] at h
    dsimp only at h
    by_cases hcond : m = m' ∧ cont = acc
    · rw [if_pos hcond] at h
      obtain ⟨h1, h2⟩ := hcond
      subst h1
      exact ⟨acc, rfl, h2, by simp at h; exact h.symm⟩
    · rw [if_neg hcond] at h
      simp at h

/-- All message ids referenced by the message events of a trace. -/
def msgIds : List Output → List String
  | [] => []
  | Output.evt (AgentEvent.message_start m) :: rest => m :: msgIds rest
  | Output.evt (AgentEvent.message_chunk m _ _) :: rest => m :: msgIds rest
  | Output.evt (AgentEvent.message_complete m _) :: rest => m :: msgIds rest
  | _ :: rest => msgIds rest

@[simp] theorem strJoin_append (a b : List String) :
    strJoin (a ++ b) = strJoin a ++ strJoin b := by
  induction a with
  | nil => simp [strJoin]
  | cons s rest ih =>
    show strJoin (s :: (rest ++ b)) = strJoin (s :: rest) ++ strJoin b
    simp only [strJoin]
    rw [ih]
    exact (String.append_assoc s (strJoin rest) (strJoin b)).symm

@[simp] theorem chunksFor_append (m : String) (a b : List Output) :
    chunksFor m (a ++ b) = chunksFor m a ++ chunksFor m b := by
  induction a with
  | nil => simp [chunksFor]
  | cons o rest ih =>
    cases o with
    | evt e =>
      cases e with
      | message_chunk m' c f =>
        by_cases h : m' = m
        · simp [chunksFor, h, ih]
        · simp [chunksFor, h, ih]
      | message_start m' => simp [chunksFor, ih]
      | message_complete m' cont => simp [chunksFor, ih]
      | tool_call_start a b c => simp [chunksFor, ih]
      | tool_call_complete a b c d => simp [chunksFor, ih]
      | tool_approval_required a b c d => simp [chunksFor, ih]
      | grouped_approval_required a b => simp [chunksFor, ih]
      | error e => simp [chunksFor, ih]
    | tokenUsageChanged u => simp [chunksFor, ih]
    | log s => simp [chunksFor, ih]
    | runInvoked a n => simp [chunksFor, ih]

theorem chunksFor_ne_nil_mem_msgIds (m : String) (l : List Output)
    (h : chunksFor m l ≠ []) : m ∈ msgIds l := by
  induction l with
  | nil => simp [chunksFor] at h
  | cons o rest ih =>
    cases o with
    | evt e =>
      cases e with
      | message_chunk m' c f =>
        by_cases hm : m' = m
        · subst hm; simp [msgIds]
        · simp only [chunksFor, if_neg hm] at h
          simp only [msgIds, List.mem_cons]
          exact Or.inr (ih h)
      | message_start m' =>
        simp only [chunksFor] at h
        simp only [msgIds, List.mem_cons]
        exact Or.inr (ih h)
      | message_complete m' cont =>
        simp only [chunksFor] at h
        simp only [msgIds, List.mem_cons]
        exact Or.inr (ih h)
      | tool_call_start a b c => simp only [chunksFor] at h; exact ih h
      | tool_call_complete a b c d => simp only [chunksFor] at h; exact ih h
      | tool_approval_required a b c d => simp only [chunksFor] at h; exact ih h
      | grouped_approval_required a b => simp only [chunksFor] at h; exact ih h
      | error e => simp only [chunksFor] at h; exact ih h
    | tokenUsageChanged u => simp only [chunksFor] at h; exact ih h
    | log s => simp only [chunksFor] at h; exact ih h
    | runInvoked a n => simp only [chunksFor] at h; exact ih h

/-- Invariant carried along an accepted trace prefix: the open message's
accumulator equals the concatenation of its chunks so far, every id that
occurs occurred in `used`, and every used id was started. -/
def ChkInv (s : Chk) (hist : List Output) : Prop :=
  (∀ m acc, s.cur = some (m, acc) → acc = strJoin (chunksFor m hist) ∧ m ∈ s.used) ∧
  (∀ m, m ∈ msgIds hist → m ∈ s.used) ∧
  (∀ m, m ∈ s.used → Output.evt (AgentEvent.message_start m) ∈ hist)

theorem chkInv_init : ChkInv { cur := none, used := [] } [] := by
  refine ⟨?_, ?_, ?_⟩ <;> simp [msgIds]

@[simp] theorem msgIds_append (a b : List Output) :
    msgIds (a ++ b) = msgIds a ++ msgIds b := by
  induction a with
  | nil => simp [msgIds]
  | cons o rest ih =>
    cases o with
    | evt e => cases e <;> simp [msgIds, ih]
    | tokenUsageChanged u => simp [msgIds, ih]
    | log s => simp [msgIds, ih]
    | runInvoked a n => simp [msgIds, ih]

/-- Extending an accepted prefix with an output that is not a message
event preserves the invariant. -/
theorem chkInv_extend_silent (s : Chk) (hist : List Output) (o : Output)
    (hinv : ChkInv s hist) (hch : ∀ m, chunksFor m [o] = []) (hmi : msgIds [o] = []) :
    ChkInv s (hist ++ [o]) := by
  obtain ⟨i1, i2, i3⟩ := hinv
  refine ⟨?_, ?_, ?_⟩
  · intro m acc hcur
    obtain ⟨ha, hmem⟩ := i1 m acc hcur
    refine ⟨?_, hmem⟩
    rw [chunksFor_append, hch m, List.append_nil]
    exact ha
  · intro m hm
    rw [msgIds_append, hmi, List.append_nil] at hm
    exact i2 m hm
  · intro m hm
    exact List.mem_append_left _ (i3 m hm)

theorem chkStep_preserves (s s2 : Chk) (o : Output) (hist : List Output)
    (hinv : ChkInv s hist) (h : chkStep s o = some s2) :
    ChkInv s2 (hist ++ [o]) := by
  obtain ⟨i1, i2, i3⟩ := hinv
  cases o with
  | evt e =>
    cases e with
    | message_start m =>
      unfold chkStep at h
      dsimp only at h
      by_cases hm : m ∈ s.used
      · rw [if_pos hm] at h; simp at h
      · rw [if_neg hm] at h
        simp only [Option.some.injEq] at h
        subst h
        have hempty : chunksFor m hist = [] := by
          by_contra hne
          exact hm (i2 m (chunksFor_ne_nil_mem_msgIds m hist hne))
        refine ⟨?_, ?_, ?_⟩
        · intro m' acc hcur
          simp only [Option.some.injEq, Prod.mk.injEq] at hcur
          obtain ⟨hm1, hm2⟩ := hcur
          subst hm1
          constructor
          · rw [chunksFor_append, hempty]
            simp [chunksFor, strJoin, ← hm2]
          · simp
        · intro m' hm'
          rw [msgIds_append] at hm'
          simp only [msgIds, List.mem_append, List.mem_cons, List.not_mem_nil,
            or_false] at hm'
          simp only [List.mem_cons]
          rcases hm' with h1 | h2
          · exact Or.inr (i2 m' h1)
          · exact Or.inl h2
        · intro m' hm'
          simp only [List.mem_cons] at hm'
          rcases hm' with h1 | h2
          · subst h1; simp
          · exact List.mem_append_left _ (i3 m' h2)
    | message_chunk m c f =>
      obtain ⟨acc, hcur, hf, hs2⟩ := chkStep_chunk_inv s s2 m c f h
      subst hs2
      obtain ⟨ha, hmem⟩ := i1 m acc hcur
      refine ⟨?_, ?_, ?_⟩
      · intro m' acc' hcur'
        simp only [Option.some.injEq, Prod.mk.injEq] at hcur'
        obtain ⟨hm1, hm2⟩ := hcur'
        subst hm1
        constructor
        · rw [chunksFor_append]
          simp [chunksFor, strJoin, ← hm2, ha]
        · exact hmem
      · intro m' hm'
        rw [msgIds_append] at hm'
        simp only [msgIds, List.mem_append, List.mem_cons, List.not_mem_nil,
          or_false] at hm'
        rcases hm' with h1 | h2
        · exact i2 m' h1
        · subst h2; exact hmem
      · intro m' hm'
        exact List.mem_append_left _ (i3 m' hm')
    | message_complete m cont =>
      obtain ⟨acc, hcur, hco, hs2⟩ := chkStep_complete_inv s s2 m cont h
      subst hs2
      obtain ⟨ha, hmem⟩ := i1 m acc hcur
      refine ⟨?_, ?_, ?_⟩
      · intro m' acc' hcur'
        simp at hcur'
      · intro m' hm'
        rw [msgIds_append] at hm'
        simp only [msgIds, List.mem_append, List.mem_cons, List.not_mem_nil,
          or_false] at hm'
        rcases hm' with h1 | h2
        · exact i2 m' h1
        · subst h2; exact hmem
      · intro m' hm'
        exact List.mem_append_left _ (i3 m' hm')
    | tool_call_start a b c =>
      have hs : s2 = s := by simp [chkStep] at h; exact h.symm
      rw [hs]
      refine chkInv_extend_silent s hist _ ⟨i1, i2, i3⟩ ?_ ?_
      · intro m; rfl
      · rfl
    | tool_call_complete a b c d =>
      have hs : s2 = s := by simp [chkStep] at h; exact h.symm
      rw [hs]
      refine chkInv_extend_silent s hist _ ⟨i1, i2, i3⟩ ?_ ?_
      · intro m; rfl
      · rfl
    | tool_approval_required a b c d =>
      have hs : s2 = s := by simp [chkStep] at h; exact h.symm
      rw [hs]
      refine chkInv_extend_silent s hist _ ⟨i1, i2, i3⟩ ?_ ?_
      · intro m; rfl
      · rfl
    | grouped_approval_required a b =>
      have hs : s2 = s := by simp [chkStep] at h; exact h.symm
      rw [hs]
      refine chkInv_extend_silent s hist _ ⟨i1, i2, i3⟩ ?_ ?_
      · intro m; rfl
      · rfl
    | error e =>
      have hs : s2 = s := by simp [chkStep] at h; exact h.symm
      rw [hs]
      refine chkInv_extend_silent s hist _ ⟨i1, i2, i3⟩ ?_ ?_
      · intro m; rfl
      · rfl
  | tokenUsageChanged u =>
    have hs : s2 = s := by simp [chkStep] at h; exact h.symm
    rw [hs]
    refine chkInv_extend_silent s hist _ ⟨i1, i2, i3⟩ ?_ ?_
    · intro m; rfl
    · rfl
  | log sg =>
    have hs : s2 = s := by simp [chkStep] at h; exact h.symm
    rw [hs]
    refine chkInv_extend_silent s hist _ ⟨i1, i2, i3⟩ ?_ ?_
    · intro m; rfl
    · rfl
  | runInvoked a n =>
    have hs : s2 = s := by simp [chkStep] at h; exact h.symm
    rw [hs]
    refine chkInv_extend_silent s hist _ ⟨i1, i2, i3⟩ ?_ ?_
    · intro m; rfl
    · rfl

theorem chkRun_preserves (l : List Output) : ∀ (s s2 : Chk) (hist : List Output),
    ChkInv s hist → chkRun s l = some s2 → ChkInv s2 (hist ++ l) := by
  induction l with
  | nil =>
    intro s s2 hist hinv h
    simp only [chkRun, Option.some.injEq] at h
    subst h
    simpa using hinv
  | cons o rest ih =>
    intro s s2 hist hinv h
    simp only [chkRun] at h
    cases hs : chkStep s o with
    | none => rw [hs] at h; simp at h
    | some s1 =>
      rw [hs] at h
      have h1 := chkStep_preserves s s1 o hist hinv hs
      have h2 := ih s1 s2 (hist ++ [o]) h1 h
      simpa using h2

/-- Once an id is used and no longer open, an accepted continuation never
emits another chunk for it. -/
theorem chkRun_no_reuse (m : String) (l : List Output) : ∀ (s s2 : Chk),
    chkRun s l = some s2 → m ∈ s.used → (∀ acc, s.cur ≠ some (m, acc)) →
    chunksFor m l = [] := by
  induction l with
  | nil => intro s s2 _ _ _; rfl
  | cons o rest ih =>
    intro s s2 h hused hcur
    simp only [chkRun] at h
    cases hs : chkStep s o with
    | none => rw [hs] at h; simp at h
    | some s1 =>
      rw [hs] at h
      cases o with
      | evt e =>
        cases e with
        | message_start m' =>
          unfold chkStep at hs
          dsimp only at hs
          by_cases hm' : m' ∈ s.used
          · rw [if_pos hm'] at hs; simp at hs
          · rw [if_neg hm'] at hs
            simp only [Option.some.injEq] at hs
            have hne : m' ≠ m := fun he => hm' (he ▸ hused)
            have htail : chunksFor m rest = [] := by
              refine ih s1 s2 h ?_ ?_
              · rw [← hs]; exact List.mem_cons_of_mem _ hused
              · intro acc hc
                rw [← hs] at hc
                simp only [Option.some.injEq, Prod.mk.injEq] at hc
                exact hne hc.1
            simpa [chunksFor] using htail
        | message_chunk m' c f =>
          obtain ⟨acc, hcurs, hf, hs1⟩ := chkStep_chunk_inv s s1 m' c f hs
          have hne : m' ≠ m := fun he => hcur acc (he ▸ hcurs)
          have htail : chunksFor m rest = [] := by
            refine ih s1 s2 h ?_ ?_
            · rw [hs1]; exact hused
            · intro acc' hc
              rw [hs1] at hc
              simp only [Option.some.injEq, Prod.mk.injEq] at hc
              exact hne hc.1
          simpa [chunksFor, if_neg hne] using htail
        | message_complete m' cont =>
          obtain ⟨acc, hcurs, hco, hs1⟩ := chkStep_complete_inv s s1 m' cont hs
          have htail : chunksFor m rest = [] := by
            refine ih s1 s2 h ?_ ?_
            · rw [hs1]; exact hused
            · intro acc' hc
              rw [hs1] at hc
              simp at hc
          simpa [chunksFor] using htail
        | tool_call_start a b c =>
          have hseq : s1 = s := by simp [chkStep] at hs; exact hs.symm
          subst hseq
          simpa [chunksFor] using ih s1 s2 h hused hcur
        | tool_call_complete a b c d =>
          have hseq : s1 = s := by simp [chkStep] at hs; exact hs.symm
          subst hseq
          simpa [chunksFor] using ih s1 s2 h hused hcur
        | tool_approval_required a b c d =>
          have hseq : s1 = s := by simp [chkStep] at hs; exact hs.symm
          subst hseq
          simpa [chunksFor] using ih s1 s2 h hused hcur
        | grouped_approval_required a b =>
          have hseq : s1 = s := by simp [chkStep] at hs; exact hs.symm
          subst hseq
          simpa [chunksFor] using ih s1 s2 h hused hcur
        | error e =>
          have hseq : s1 = s := by simp [chkStep] at hs; exact hs.symm
          subst hseq
          simpa [chunksFor] using ih s1 s2 h hused hcur
      | tokenUsageChanged u =>
        have hseq : s1 = s := by simp [chkStep] at hs; exact hs.symm
        subst hseq
        simpa [chunksFor] using ih s1 s2 h hused hcur
      | log sg =>
        have hseq : s1 = s := by simp [chkStep] at hs; exact hs.symm
        subst hseq
        simpa [chunksFor] using ih s1 s2 h hused hcur
      | runInvoked a n =>
        have hseq : s1 = s := by simp [chkStep] at hs; exact hs.symm
        subst hseq
        simpa [chunksFor] using ih s1 s2 h hused hcur

theorem procSteps_cons (ev : StreamEvent) (evs : List StreamEvent)
    (ag : AgentState) (ps : ProcState) :
    procSteps (ev :: evs) ag ps =
      ((procSteps evs (procStep ag ps ev).1 (procStep ag ps ev).2.1).1,
       (procSteps evs (procStep ag ps ev).1 (procStep ag ps ev).2.1).2.1,
       (procStep ag ps ev).2.2 ++
         (procSteps evs (procStep ag ps ev).1 (procStep ag ps ev).2.1).2.2) := by
  cases hp : procStep ag ps ev with
  | mk ag1 r1 =>
    obtain ⟨ps1, o1⟩ := r1
    cases hq : procSteps evs ag1 ps1 with
    | mk ag2 r2 =>
      obtain ⟨ps2, o2⟩ := r2
      simp [procSteps, hp, hq]

/-- Relation between the loop locals of `_processRunResult` and the
validator state: the open message matches `currentMessageId` and its
accumulator matches `fullResponse`, and every used id was generated by an
earlier value of the fresh counter. -/
def ChkLink (ag : AgentState) (ps : ProcState) (s : Chk) : Prop :=
  (ps.currentMessageId = none → s.cur = none) ∧
  (∀ m, ps.currentMessageId = some m → s.cur = some (m, ps.fullResponse)) ∧
  (∀ m ∈ s.used, ∃ j, j < ag.freshCounter ∧ m = mkMsgId j)

/-- One loop step of `_processRunResult` is accepted by the validator and
re-establishes the link. -/
theorem procStep_accepted (ev : StreamEvent) (ag : AgentState) (ps : ProcState) (s : Chk)
    (hl : ChkLink ag ps s) :
    ∃ s1, chkRun s (procStep ag ps ev).2.2 = some s1 ∧
      ChkLink (procStep ag ps ev).1 (procStep ag ps ev).2.1 s1 := by
  obtain ⟨l1, l2, l3⟩ := hl
  cases ev with
  | responseStarted =>
    have hnotin : mkMsgId ag.freshCounter ∉ s.used := by
      intro hmem
      obtain ⟨j, hj, heq⟩ := l3 _ hmem
      exact absurd (mkMsgId_injective heq.symm) (by omega)
    refine ⟨{ cur := some (mkMsgId ag.freshCounter, ""),
              used := mkMsgId ag.freshCounter :: s.used }, ?_, ?_, ?_, ?_⟩
    · simp [procStep, chkRun, chkStep, hnotin]
    · intro h; simp [procStep] at h
    · intro m hm
      simp only [procStep, Option.some.injEq] at hm ⊢
      rw [← hm]
    · intro m hm
      simp only [List.mem_cons] at hm
      simp only [procStep]
      rcases hm with h1 | h2
      · exact ⟨ag.freshCounter, by omega, h1⟩
      · obtain ⟨j, hj, heq⟩ := l3 m h2
        exact ⟨j, by omega, heq⟩
  | outputTextDelta d =>
    cases hc : ps.currentMessageId with
    | none =>
      refine ⟨s, ?_, ?_, ?_, ?_⟩
      · simp [procStep, hc, chkRun]
      · intro _; exact l1 hc
      · intro m hm
        simp only [procStep, hc] at hm
        simp at hm
      · intro m hm
        simp only [procStep, hc]
        exact l3 m hm
    | some mid =>
      have hcur : s.cur = some (mid, ps.fullResponse) := l2 mid hc
      refine ⟨{ cur := some (mid, ps.fullResponse ++ jsOr d ""), used := s.used }, ?_, ?_, ?_, ?_⟩
      · simp [procStep, hc, chkRun, chkStep, hcur]
      · intro h
        simp only [procStep, hc] at h
        simp at h
      · intro m hm
        simp only [procStep, hc, Option.some.injEq] at hm ⊢
        rw [← hm]
      · intro m hm
        simp only [procStep, hc]
        exact l3 m hm
  | responseDone u =>
    cases hc : ps.currentMessageId with
    | none =>
      refine ⟨s, ?_, ?_, ?_, ?_⟩
      · simp [procStep, hc, chkRun, chkStep]
      · intro _; exact l1 hc
      · intro m hm
        simp only [procStep, hc] at hm
        simp at hm
      · intro m hm
        simp only [procStep, hc]
        exact l3 m hm
    | some mid =>
      have hcur : s.cur = some (mid, ps.fullResponse) := l2 mid hc
      refine ⟨{ cur := none, used := s.used }, ?_, ?_, ?_, ?_⟩
      · simp [procStep, hc, chkRun, chkStep, hcur]
      · intro _; rfl
      · intro m hm
        simp only [procStep, hc] at hm
        simp at hm
      · intro m hm
        simp only [procStep, hc]
        exact l3 m hm
  | modelEvent me =>
    cases me with
    | toolCall a b c => exact ⟨s, rfl, l1, l2, l3⟩
    | otherModelEvent => exact ⟨s, rfl, l1, l2, l3⟩
  | otherRaw => exact ⟨s, rfl, l1, l2, l3⟩
  | runItem name item =>
    have hred : procStep ag ps (StreamEvent.runItem name item)
        = (ag, ps, if name = "tool_output" then handleToolOutput item else []) := by
      simp only [procStep]
      by_cases h : name = "tool_output" <;> simp [h]
    rw [hred]
    refine ⟨s, ?_, l1, l2, l3⟩
    by_cases h : name = "tool_output"
    · simp only [if_pos h]
      rfl
    · simp only [if_neg h]
      rfl
  | otherEvent => exact ⟨s, rfl, l1, l2, l3⟩

/-- Every `_processRunResult` trace is accepted by the validator. -/
theorem procSteps_accepted (evs : List StreamEvent) :
    ∀ (ag : AgentState) (ps : ProcState) (s : Chk), ChkLink ag ps s →
    ∃ s2, chkRun s (procSteps evs ag ps).2.2 = some s2 ∧
      ChkLink (procSteps evs ag ps).1 (procSteps evs ag ps).2.1 s2 := by
  induction evs with
  | nil =>
    intro ag ps s hl
    exact ⟨s, rfl, hl⟩
  | cons ev rest ih =>
    intro ag ps s hl
    rw [procSteps_cons]
    dsimp only
    rw [chkRun_append]
    obtain ⟨s1, hstep, hlink1⟩ := procStep_accepted ev ag ps s hl
    obtain ⟨s2, hrun, hl2⟩ := ih _ _ _ hlink1
    refine ⟨s2, ?_, hl2⟩
    rw [hstep]
    exact hrun

/-- The whole `_processRunResult` trace, from the initial loop locals, is
accepted by the validator started in its initial state. -/
theorem processRunResult_accepted (evs : List StreamEvent) (st : AgentState) :
    ∃ s2, chkRun { cur := none, used := [] } (processRunResult evs st).2 = some s2 := by
  obtain ⟨s2, hrun, -⟩ := procSteps_accepted evs st
    { fullResponse := "", currentMessageId := none } { cur := none, used := [] }
    ⟨fun _ => rfl, fun m hm => by simp at hm, fun m hm => by simp at hm⟩
  exact ⟨s2, hrun⟩

/-- With no open message, a loop step other than `response_started` emits
no chunk and leaves no message open. -/
theorem procStep_no_chunk_of_none (ev : StreamEvent) (ag : AgentState) (ps : ProcState)
    (hc : ps.currentMessageId = none) (hne : ev ≠ StreamEvent.responseStarted) :
    (procStep ag ps ev).2.1.currentMessageId = none ∧
    ∀ m c f, Output.evt (AgentEvent.message_chunk m c f) ∉ (procStep ag ps ev).2.2 := by
  cases ev with
  | responseStarted => exact absurd rfl hne
  | outputTextDelta d => simp [procStep, hc]
  | responseDone u => simp [procStep, hc]
  | modelEvent me =>
    cases me with
    | toolCall a b c => simp [procStep, handleToolCallStart, hc]
    | otherModelEvent => simp [procStep, handleToolCallStart, hc]
  | otherRaw => simp [procStep, hc]
  | runItem name item =>
    by_cases h : name = "tool_output"
    · simp [procStep, h, handleToolOutput, hc]
    · simp [procStep, h, hc]
  | otherEvent => simp [procStep, hc]

/-- Text deltas arriving with no message open are dropped: a stream with
no `response_started` item produces no `message_chunk` at all. -/
theorem procSteps_no_start_no_chunk (evs : List StreamEvent) :
    ∀ (ag : AgentState) (ps : ProcState), ps.currentMessageId = none →
    (∀ e ∈ evs, e ≠ StreamEvent.responseStarted) →
    ∀ m c f, Output.evt (AgentEvent.message_chunk m c f) ∉ (procSteps evs ag ps).2.2 := by
  induction evs with
  | nil => intro ag ps _ _ m c f; simp [procSteps]
  | cons ev rest ih =>
    intro ag ps hc hno m c f
    rw [procSteps_cons]
    dsimp only
    rw [List.mem_append]
    push_neg
    obtain ⟨h1, h2⟩ := procStep_no_chunk_of_none ev ag ps hc
      (hno ev (List.mem_cons_self ev rest))
    exact ⟨h2 m c f,
      ih _ _ h1 (fun e he => hno e (List.mem_cons_of_mem ev he)) m c f⟩

/-- **C2**: for every assistant message id, each `message_chunk` carries a
`fullContent` equal to the concatenation of all chunk fragments emitted so
far for that id plus the current fragment, and a `message_complete` for
that id carries exactly the concatenation of all of its chunk fragments
(no chunk for the id follows the completion). -/
theorem c2_chunk_accumulation :
    (∀ (evs : List StreamEvent) (st : AgentState) (o1 o2 : List Output) (m c f : String),
        (processRunResult evs st).2 = o1 ++ Output.evt (AgentEvent.message_chunk m c f) :: o2 →
        f = strJoin (chunksFor m o1) ++ c) ∧
    (∀ (evs : List StreamEvent) (st : AgentState) (o1 o2 : List Output) (m cont : String),
        (processRunResult evs st).2 = o1 ++ Output.evt (AgentEvent.message_complete m cont) :: o2 →
        cont = strJoin (chunksFor m o1) ∧ chunksFor m o2 = []) := by
  constructor
  · intro evs st o1 o2 m c f hsplit
    obtain ⟨s2, hacc⟩ := processRunResult_accepted evs st
    rw [hsplit] at hacc
    obtain ⟨s1, s15, hrun1, hstep, hrun2⟩ := chkRun_split o1 o2 _ _ s2 hacc
    obtain ⟨acc, hcur, hf, -⟩ := chkStep_chunk_inv s1 s15 m c f hstep
    have hinv := chkRun_preserves o1 _ s1 [] chkInv_init hrun1
    obtain ⟨i1, -, -⟩ := hinv
    have ha := (i1 m acc hcur).1
    rw [hf, ha]
    simp
  · intro evs st o1 o2 m cont hsplit
    obtain ⟨s2, hacc⟩ := processRunResult_accepted evs st
    rw [hsplit] at hacc
    obtain ⟨s1, s15, hrun1, hstep, hrun2⟩ := chkRun_split o1 o2 _ _ s2 hacc
    obtain ⟨acc, hcur, hco, hs15⟩ := chkStep_complete_inv s1 s15 m cont hstep
    have hinv := chkRun_preserves o1 _ s1 [] chkInv_init hrun1
    obtain ⟨i1, -, -⟩ := hinv
    obtain ⟨ha, hmem⟩ := i1 m acc hcur
    constructor
    · rw [hco, ha]
      simp
    · refine chkRun_no_reuse m o2 s15 s2 hrun2 ?_ ?_
      · rw [hs15]; exact hmem
      · intro acc' hcontra
        rw [hs15] at hcontra
        simp at hcontra

/-- **C9**: every `message_chunk` and `message_complete` references the id
of a previously emitted `message_start`; text deltas arriving before any
`response_started` item are silently dropped; and after a
`message_complete` no later `message_chunk` references that id. -/
theorem c9_message_event_discipline :
    (∀ (evs : List StreamEvent) (st : AgentState) (o1 o2 : List Output) (m c f : String),
        (processRunResult evs st).2 = o1 ++ Output.evt (AgentEvent.message_chunk m c f) :: o2 →
        Output.evt (AgentEvent.message_start m) ∈ o1) ∧
    (∀ (evs : List StreamEvent) (st : AgentState) (o1 o2 : List Output) (m cont : String),
        (processRunResult evs st).2 = o1 ++ Output.evt (AgentEvent.message_complete m cont) :: o2 →
        Output.evt (AgentEvent.message_start m) ∈ o1 ∧ chunksFor m o2 = []) ∧
    (∀ (evs : List StreamEvent) (st : AgentState),
        (∀ e ∈ evs, e ≠ StreamEvent.responseStarted) →
        ∀ m c f, Output.evt (AgentEvent.message_chunk m c f) ∉ (processRunResult evs st).2) := by
  refine ⟨?_, ?_, ?_⟩
  · intro evs st o1 o2 m c f hsplit
    obtain ⟨s2, hacc⟩ := processRunResult_accepted evs st
    rw [hsplit] at hacc
    obtain ⟨s1, s15, hrun1, hstep, hrun2⟩ := chkRun_split o1 o2 _ _ s2 hacc
    obtain ⟨acc, hcur, -, -⟩ := chkStep_chunk_inv s1 s15 m c f hstep
    have hinv := chkRun_preserves o1 _ s1 [] chkInv_init hrun1
    obtain ⟨i1, -, i3⟩ := hinv
    have hmem := (i1 m acc hcur).2
    simpa using i3 m hmem
  · intro evs st o1 o2 m cont hsplit
    obtain ⟨s2, hacc⟩ := processRunResult_accepted evs st
    rw [hsplit] at hacc
    obtain ⟨s1, s15, hrun1, hstep, hrun2⟩ := chkRun_split o1 o2 _ _ s2 hacc
    obtain ⟨acc, hcur, -, hs15⟩ := chkStep_complete_inv s1 s15 m cont hstep
    have hinv := chkRun_preserves o1 _ s1 [] chkInv_init hrun1
    obtain ⟨i1, -, i3⟩ := hinv
    obtain ⟨-, hmem⟩ := i1 m acc hcur
    constructor
    · simpa using i3 m hmem
    · refine chkRun_no_reuse m o2 s15 s2 hrun2 ?_ ?_
      · rw [hs15]; exact hmem
      · intro acc' hcontra
        rw [hs15] at hcontra
        simp at hcontra
  · intro evs st hno m c f
    exact procSteps_no_start_no_chunk evs st
      { fullResponse := "", currentMessageId := none } rfl hno m c f

theorem c2_witness :
    "ab" = strJoin (chunksFor (mkMsgId 0)
        [Output.evt (AgentEvent.message_start (mkMsgId 0)),
         Output.evt (AgentEvent.message_chunk (mkMsgId 0) "a" "a")]) ++ "b" :=
  c2_chunk_accumulation.1
    [StreamEvent.responseStarted, StreamEvent.outputTextDelta (some "a"),
     StreamEvent.outputTextDelta (some "b"),
     StreamEvent.responseDone { inputTokens := 3, outputTokens := 4 }]
    sampleState
    [Output.evt (AgentEvent.message_start (mkMsgId 0)),
     Output.evt (AgentEvent.message_chunk (mkMsgId 0) "a" "a")]
    [Output.evt (AgentEvent.message_complete (mkMsgId 0) "ab"),
     Output.tokenUsageChanged { inputTokens := 3, outputTokens := 4 }]
    (mkMsgId 0) "b" "ab" (by decide)

theorem c9_witness :
    Output.evt (AgentEvent.message_start (mkMsgId 0)) ∈
      [Output.evt (AgentEvent.message_start (mkMsgId 0)),
       Output.evt (AgentEvent.message_chunk (mkMsgId 0) "a" "a"),
       Output.evt (AgentEvent.message_chunk (mkMsgId 0) "b" "ab")] ∧
    (∀ m c f, Output.evt (AgentEvent.message_chunk m c f) ∉
        (processRunResult [StreamEvent.outputTextDelta (some "x")] sampleState).2) := by
  constructor
  · exact (c9_message_event_discipline.2.1
      [StreamEvent.responseStarted, StreamEvent.outputTextDelta (some "a"),
       StreamEvent.outputTextDelta (some "b"),
       StreamEvent.responseDone { inputTokens := 3, outputTokens := 4 }]
      sampleState
      [Output.evt (AgentEvent.message_start (mkMsgId 0)),
       Output.evt (AgentEvent.message_chunk (mkMsgId 0) "a" "a"),
       Output.evt (AgentEvent.message_chunk (mkMsgId 0) "b" "ab")]
      [Output.tokenUsageChanged { inputTokens := 3, outputTokens := 4 }]
      (mkMsgId 0) "ab" (by decide)).1
  · exact c9_message_event_discipline.2.2
      [StreamEvent.outputTextDelta (some "x")] sampleState
      (by
        intro e he
        simp only [List.mem_singleton] at he
        subst he
        intro hcon
        exact StreamEvent.noConfusion hcon)
